import Mathlib

/-!
# Verification of b2_backup core algorithms

Shallow embedding of the core algorithms of the b2_backup tool
(content-defined chunker, pack codec framing, archive block framing,
manifest database session logic, restore planner) together with proofs
of the specified properties.

Byte values are modelled as `UInt8`, byte buffers as `List UInt8`,
`usize` arithmetic as `Nat` with explicit wrapping modulo `2 ^ 64`
where the source performs machine arithmetic, and SQLite tables as
lists of row structures.  Fallible operations return `Except`.
-/

namespace B2Backup

namespace Split

/-! ## Content-defined chunker (src/split.rs)

`RollingSum` and `split` are translated from src/split.rs.  The Rust
`split` reads from an `impl Read`; we model the reader as the list of
byte runs successively returned by `Read::read` (an empty run models a
zero-length read, which terminates the loop).  The `FnMut` consumer is
modelled as a state-threading function into `Except`. -/

def WINDOW_BITS : Nat := 6

def WINDOW_SIZE : Nat := 1 <<< WINDOW_BITS

def WINDOW_MASK : Nat := WINDOW_SIZE - 1

def CHUNK_BITS : Nat := 15

def CHUNK_SIZE : Nat := 1 <<< CHUNK_BITS

def CHUNK_MASK : Nat := CHUNK_SIZE - 1

def CHAR_OFFSET : Nat := 31

/-- `usize::MAX + 1`; the source is built for a 64-bit target. -/
def USIZE_MOD : Nat := 2 ^ 64

/-- Wrapping `usize` addition. -/
def wadd (a b : Nat) : Nat := (a + b) % USIZE_MOD

/-- Wrapping `usize` subtraction (both operands already reduced). -/
def wsub (a b : Nat) : Nat := (a + (USIZE_MOD - b % USIZE_MOD)) % USIZE_MOD

structure RollingSum where
  s1 : Nat
  s2 : Nat
  win : List UInt8
  pos : Nat
deriving Repr, DecidableEq

def RollingSum.new : RollingSum :=
  { s1 := WINDOW_SIZE * CHAR_OFFSET
  , s2 := WINDOW_SIZE * (WINDOW_SIZE - 1) * CHAR_OFFSET
  , win := List.replicate WINDOW_SIZE 0
  , pos := 0 }

/-- One iteration of the `for` loop in `RollingSum::split`: replace the
byte leaving the window, advance the ring position, and update both
running sums with wrapping `usize` arithmetic. -/
def rollStep (st : RollingSum) (newVal : UInt8) : RollingSum :=
  let oldVal := st.win.getD st.pos 0
  let win := st.win.set st.pos newVal
  let pos := (st.pos + 1) &&& WINDOW_MASK
  let s1a := wadd st.s1 newVal.toNat
  let s1 := wsub s1a oldVal.toNat
  let s2a := wadd st.s2 s1
  let s2 := wsub s2a (WINDOW_SIZE * (oldVal.toNat + CHAR_OFFSET))
  { s1 := s1, s2 := s2, win := win, pos := pos }

/-- The digest computed each iteration:
`(((s1 & 0xFFFF) as u32) << 16) | ((s2 & 0xFFFF) as u32)`. -/
def digest (st : RollingSum) : Nat :=
  ((st.s1 &&& 0xFFFF) <<< 16) ||| (st.s2 &&& 0xFFFF)

/-- The boundary test `digest & CHUNK_MASK == CHUNK_MASK`. -/
def isBoundary (st : RollingSum) : Bool :=
  digest st &&& CHUNK_MASK == CHUNK_MASK

/-- `RollingSum::split`: scan a buffer, returning the position one past
the first boundary byte (`Some(idx + 1)`) if any, together with the
mutated rolling-sum state. -/
def RollingSum.splitBuf (st : RollingSum) : List UInt8 → Option Nat × RollingSum
  | [] => (none, st)
  | b :: rest =>
    let st' := rollStep st b
    if isBoundary st' then (some 1, st')
    else
      let r := st'.splitBuf rest
      (r.1.map (· + 1), r.2)

/-- Any position returned by `RollingSum.splitBuf` is at least 1 and at
most the buffer length (used for termination of the loops below). -/
def splitBuf_pos_bounds (st : RollingSum) (buf : List UInt8) (pos : Nat)
    (h : (st.splitBuf buf).1 = some pos) : 1 ≤ pos ∧ pos ≤ buf.length := by
  induction buf generalizing st pos with
  | nil => simp [RollingSum.splitBuf] at h
  | cons b rest ih =>
    simp only [RollingSum.splitBuf] at h
    split at h
    · simp only [Prod.fst] at h
      cases h
      simp
    · simp only [Option.map_eq_some'] at h
      obtain ⟨q, hq, rfl⟩ := h
      have := ih _ _ hq
      simp
      omega

/-- The chunk-extraction loop of `split`, abstracted over the bytes
scanned so far: given the bytes `pending` already belonging to the
current chunk (i.e. `buf[start..end]` carried over from earlier reads)
and the current rolling-sum state, repeatedly apply `RollingSum::split`
to `buf`, emitting a chunk and resetting the state at each boundary.
Returns (complete chunks, leftover bytes, final rolling-sum state). -/
def chunksFrom (pending : List UInt8) (st : RollingSum) (buf : List UInt8) :
    List (List UInt8) × List UInt8 × RollingSum :=
  match h : (st.splitBuf buf).1 with
  | some pos =>
    let r := chunksFrom [] RollingSum.new (buf.drop pos)
    ((pending ++ buf.take pos) :: r.1, r.2)
  | none => ([], pending ++ buf, (st.splitBuf buf).2)
termination_by buf.length
decreasing_by
  have := splitBuf_pos_bounds st buf pos h
  simp only [List.length_drop]
  omega

/-- The chunk decomposition of a complete input stream: the complete
chunks cut at rolling-sum boundaries, plus the non-empty trailing bytes
as a final chunk. -/
def splitChunks (input : List UInt8) : List (List UInt8) :=
  let r := chunksFrom [] RollingSum.new input
  r.1 ++ (if r.2.1.isEmpty then [] else [r.2.1])

/-- The inner `while let Some(pos) = sum.split(&buf[end..])` loop of
`split`: scan the newly read bytes `tail`, feeding each completed chunk
(current-chunk prefix `pending` plus the scanned bytes up to the
boundary) to the consumer and resetting the rolling sum.  Consumer
errors are propagated immediately. -/
def scanBuf (f : σ → List UInt8 → Except ε σ) (s : σ) (pending : List UInt8)
    (st : RollingSum) (tail : List UInt8) :
    Except ε (σ × List UInt8 × RollingSum) :=
  match h : (st.splitBuf tail).1 with
  | some pos => do
    let s' ← f s (pending ++ tail.take pos)
    scanBuf f s' [] RollingSum.new (tail.drop pos)
  | none => .ok (s, pending ++ tail, (st.splitBuf tail).2)
termination_by tail.length
decreasing_by
  have := splitBuf_pos_bounds st tail pos h
  simp only [List.length_drop]
  omega

/-- The outer read loop of `split`: each element of `reads` is the byte
run returned by one `Read::read` call; an empty run (`read == 0`)
terminates the loop, after which any non-empty leftover bytes are fed
to the consumer as the final chunk. -/
def splitReads (f : σ → List UInt8 → Except ε σ) :
    List (List UInt8) → σ → List UInt8 → RollingSum → Except ε σ
  | [], s, pending, _ => if pending.isEmpty then .ok s else f s pending
  | r :: rs, s, pending, st =>
    if r.isEmpty then
      if pending.isEmpty then .ok s else f s pending
    else do
      let t ← scanBuf f s pending st r
      splitReads f rs t.1 t.2.1 t.2.2

/-- `split(reader, consumer)` from src/split.rs, with the reader
modelled as the list of read results and the `FnMut` consumer as a
state-threading fallible function. -/
def split (f : σ → List UInt8 → Except ε σ) (s : σ) (reads : List (List UInt8)) :
    Except ε σ :=
  splitReads f reads s [] RollingSum.new


/-- Weighted sum of queue bytes with weights `w, w - 1, ...` (proof
device for the `s2` invariant of the rolling sum). -/
def wsum : Nat → List UInt8 → Nat
  | _, [] => 0
  | w, x :: r => w * x.toNat + wsum (w - 1) r

/-- The window contents in ring order, oldest byte first. -/
def queue (st : RollingSum) : List UInt8 :=
  st.win.drop st.pos ++ st.win.take st.pos

end Split

namespace Manifest

/-! ## Archive block framing (src/manifest.rs, `Archive`)

`Archive::store_block` appends frames to the archive scratch file and
`Archive::read` parses them back.  The scratch file and the archive
blob plaintext are modelled as `List UInt8`. -/

/-- `sodiumoxide::crypto::hash::sha256::DIGESTBYTES`. -/
def DIGESTBYTES : Nat := 32

/-- `u32::to_be_bytes` (the source converts the block length with
`u32::try_from(block.len()).unwrap()`). -/
def u32be (n : Nat) : List UInt8 :=
  [UInt8.ofNat (n / 2 ^ 24 % 256), UInt8.ofNat (n / 2 ^ 16 % 256),
    UInt8.ofNat (n / 2 ^ 8 % 256), UInt8.ofNat (n % 256)]

/-- `u32::from_be_bytes`. -/
def beVal (l : List UInt8) : Nat :=
  l.foldl (fun acc b => acc * 256 + b.toNat) 0

/-- `Archive::store_block`: append `digest ‖ block.len() as u32 BE ‖
block bytes` to the archive scratch file. -/
def Archive.store_block (scratch : List UInt8) (dg block : List UInt8) : List UInt8 :=
  scratch ++ dg ++ u32be block.length ++ block

/-- The scratch-file contents after storing a sequence of
(digest, block) pairs in insertion order into a fresh archive. -/
def archiveBytes (pairs : List (List UInt8 × List UInt8)) : List UInt8 :=
  pairs.foldl (fun acc p => Archive.store_block acc p.1 p.2) []

/-- `Archive::read`: parse the archive stream, invoking the consumer on
each (digest, block) frame.  A `read_exact` of the digest that hits EOF
(fewer than `DIGESTBYTES` bytes remaining) ends the loop with success;
a truncated length or block is an `UnexpectedEof` error; consumer
errors are propagated immediately. -/
def Archive.read (f : σ → List UInt8 → List UInt8 → Except String σ) (s : σ)
    (data : List UInt8) : Except String σ :=
  if h32 : data.length < DIGESTBYTES then .ok s
  else if h4 : (data.drop DIGESTBYTES).length < 4 then .error "UnexpectedEof"
  else if hn : ((data.drop DIGESTBYTES).drop 4).length <
      beVal ((data.drop DIGESTBYTES).take 4) then .error "UnexpectedEof"
  else
    match f s (data.take DIGESTBYTES)
        (((data.drop DIGESTBYTES).drop 4).take
          (beVal ((data.drop DIGESTBYTES).take 4))) with
    | .error e => .error e
    | .ok s' =>
      Archive.read f s'
        (((data.drop DIGESTBYTES).drop 4).drop
          (beVal ((data.drop DIGESTBYTES).take 4)))
termination_by data.length
decreasing_by
  simp only [List.length_drop, DIGESTBYTES] at h32 h4 ⊢
  omega


/-! ## Manifest database model (src/manifest.rs)

SQLite tables are modelled as lists of row structures in rowid order;
`INTEGER PRIMARY KEY` rowids are allocated from per-table monotone
counters (patchsets and archives use AUTOINCREMENT, which never reuses
ids).  `ON DELETE CASCADE` declared by the schema is modelled at the
deleting operations.  The B2 client is an external collaborator,
modelled as a pure function from blob name and content to
(b2_file_id, b2_length); remote uploads and removals performed by an
operation are returned alongside the new database state. -/

structure PatchsetRow where
  id : Int
  b2_file_id : Option String
  b2_length : Option Int
deriving Repr, DecidableEq

structure ArchiveRow where
  id : Int
  length : Option Int
  b2_file_id : Option String
  b2_length : Option Int
deriving Repr, DecidableEq

structure FileRow where
  id : Int
  path : List UInt8
  size : Int
  mode : Int
  symlink : Option (List UInt8)
deriving Repr, DecidableEq

structure BlockRow where
  id : Int
  digest : List UInt8
  archive_id : Int
deriving Repr, DecidableEq

structure MappingRow where
  file_id : Int
  offset : Int
  block_id : Int
deriving Repr, DecidableEq

structure NewFileRow where
  id : Int
  path : List UInt8
  size : Int
  mode : Int
  symlink : Option (List UInt8)
  closed : Bool
deriving Repr, DecidableEq

structure NewMappingRow where
  new_file_id : Int
  offset : Int
  block_id : Int
deriving Repr, DecidableEq

structure Db where
  patchsets : List PatchsetRow
  archives : List ArchiveRow
  files : List FileRow
  blocks : List BlockRow
  mappings : List MappingRow
  visited_files : List Int
  new_files : List NewFileRow
  new_mappings : List NewMappingRow
  next_patchset_id : Int
  next_archive_id : Int
  next_file_id : Int
  next_block_id : Int
deriving Repr, DecidableEq

/-- The B2 client (external collaborator): uploading a named blob
returns its remote (b2_file_id, b2_length). -/
structure Client where
  upload : String → List UInt8 → String × Int

def insert_patchset (db : Db) : Db × Int :=
  ({ db with
      patchsets := db.patchsets ++
        [{ id := db.next_patchset_id, b2_file_id := none, b2_length := none }],
      next_patchset_id := db.next_patchset_id + 1 },
    db.next_patchset_id)

def update_patchset (db : Db) (patchset_id : Int) (fid : String) (len : Int) : Db :=
  { db with
      patchsets := db.patchsets.map (fun r =>
        if r.id == patchset_id then
          { r with b2_file_id := some fid, b2_length := some len }
        else r) }

def delete_patchset (db : Db) (patchset_id : Int) : Db :=
  { db with patchsets := db.patchsets.filter (fun r => r.id != patchset_id) }

def insert_archive (db : Db) : Db × Int :=
  ({ db with
      archives := db.archives ++
        [{ id := db.next_archive_id, length := none, b2_file_id := none,
            b2_length := none }],
      next_archive_id := db.next_archive_id + 1 },
    db.next_archive_id)

def update_archive (db : Db) (archive_id : Int) (len : Int) (fid : String)
    (b2len : Int) : Db :=
  { db with
      archives := db.archives.map (fun r =>
        if r.id == archive_id then
          { r with
              length := some len,
              b2_file_id := some fid,
              b2_length := some b2len }
        else r) }

/-- `DELETE FROM archives WHERE id = ?`; the schema cascades the delete
to the blocks of that archive. -/
def delete_archive (db : Db) (archive_id : Int) : Db :=
  { db with
      archives := db.archives.filter (fun r => r.id != archive_id),
      blocks := db.blocks.filter (fun b => b.archive_id != archive_id) }

def select_file (db : Db) (path : List UInt8) : Option Int :=
  (db.files.find? (fun f => f.path == path)).map (fun f => f.id)

def insert_file (db : Db) (nf : NewFileRow) : Db × Int :=
  ({ db with
      files := db.files ++
        [{ id := db.next_file_id, path := nf.path, size := nf.size,
            mode := nf.mode, symlink := nf.symlink }],
      next_file_id := db.next_file_id + 1 },
    db.next_file_id)

def update_file (db : Db) (file_id : Int) (nf : NewFileRow) : Db :=
  { db with
      files := db.files.map (fun f =>
        if f.id == file_id then
          { f with size := nf.size, mode := nf.mode, symlink := nf.symlink }
        else f) }

def select_block (db : Db) (dg : List UInt8) : Option Int :=
  (db.blocks.find? (fun b => b.digest == dg)).map (fun b => b.id)

def insert_block (db : Db) (dg : List UInt8) (archive_id : Int) : Db × Int :=
  ({ db with
      blocks := db.blocks ++
        [{ id := db.next_block_id, digest := dg, archive_id := archive_id }],
      next_block_id := db.next_block_id + 1 },
    db.next_block_id)

def insert_mappings (db : Db) (file_id new_file_id : Int) : Db :=
  { db with
      mappings := db.mappings ++
        (db.new_mappings.filter (fun nm => nm.new_file_id == new_file_id)).map
          (fun nm =>
            { file_id := file_id, offset := nm.offset, block_id := nm.block_id }) }

def delete_mappings (db : Db) (file_id : Int) : Db :=
  { db with mappings := db.mappings.filter (fun m => m.file_id != file_id) }

def insert_visited_file (db : Db) (file_id : Int) : Db :=
  { db with visited_files := db.visited_files ++ [file_id] }

def delete_visited_files (db : Db) : Db :=
  { db with visited_files := [] }

/-- `DELETE FROM new_files WHERE id = ?`; the schema cascades to the
new_mappings of that new file. -/
def delete_new_file (db : Db) (new_file_id : Int) : Db :=
  { db with
      new_files := db.new_files.filter (fun nf => nf.id != new_file_id),
      new_mappings := db.new_mappings.filter
        (fun nm => nm.new_file_id != new_file_id) }

def insert_new_mapping (db : Db) (new_file_id offset block_id : Int) : Db :=
  { db with
      new_mappings := db.new_mappings ++
        [{ new_file_id := new_file_id, offset := offset, block_id := block_id }] }

/-- The `NOT EXISTS` subquery of `collect_closed_new_files`: does any
new_mapping of this new file reference a block of an archive whose
`b2_file_id IS NULL` (not yet uploaded)? -/
def has_pending_block (db : Db) (new_file_id : Int) : Bool :=
  db.new_mappings.any (fun nm =>
    nm.new_file_id == new_file_id &&
    db.blocks.any (fun b =>
      b.id == nm.block_id &&
      db.archives.any (fun a => a.id == b.archive_id && a.b2_file_id.isNone)))

/-- One iteration of the `collect_closed_new_files` loop: promote one
closed new file into the persistent files/mappings tables. -/
def promote_new_file (db : Db) (nf : NewFileRow) : Db :=
  let pair :=
    match select_file db nf.path with
    | some fid => (delete_mappings (update_file db fid nf) fid, fid)
    | none => insert_file db nf
  let d2 := insert_mappings pair.1 pair.2 nf.id
  let d3 := insert_visited_file d2 pair.2
  delete_new_file d3 nf.id

/-- `collect_closed_new_files`: promote every closed new file none of
whose blocks lives in a not-yet-uploaded archive. -/
def collect_closed_new_files (db : Db) : Db :=
  (db.new_files.filter (fun nf => nf.closed && !(has_pending_block db nf.id))).foldl
    promote_new_file db

/-- `DELETE FROM files WHERE id NOT IN (SELECT file_id FROM
visited_files)`; the schema cascades the delete to the mappings of the
deleted files. -/
def delete_unvisited_files (db : Db) : Db :=
  { db with
      files := db.files.filter (fun f => db.visited_files.contains f.id),
      mappings := db.mappings.filter (fun m =>
        !(db.files.any (fun f =>
          f.id == m.file_id && !(db.visited_files.contains f.id)))) }

/-- `DELETE FROM blocks WHERE id NOT IN (SELECT block_id FROM
mappings)`. -/
def delete_unused_blocks (db : Db) : Db :=
  { db with
      blocks := db.blocks.filter (fun b =>
        db.mappings.any (fun m => m.block_id == b.id)) }

/-- `SELECT id, b2_file_id FROM archives WHERE id NOT IN (SELECT
archive_id FROM blocks)`. -/
def select_unused_archives (db : Db) : List (Int × Option String) :=
  (db.archives.filter (fun a =>
      !(db.blocks.any (fun b => b.archive_id == a.id)))).map
    (fun a => (a.id, a.b2_file_id))

/-- `delete_unused_archives`: unless `keep_unvisited_files`, delete the
files not marked visited (cascading their mappings); then delete the
blocks with no mapping; then collect and delete the archives with no
block, returning their (id, b2_file_id) for remote removal after
commit. -/
def delete_unused_archives (db : Db) (keep_unvisited_files : Bool) :
    Db × List (Int × Option String) :=
  let d1 := if keep_unvisited_files then db else delete_unvisited_files db
  let d2 := delete_unused_blocks d1
  let unused := select_unused_archives d2
  ({ d2 with
      archives := d2.archives.filter (fun a =>
        d2.blocks.any (fun b => b.archive_id == a.id)) },
    unused)

/-- The `SUM(lengths.b2_length) FROM patchsets lengths WHERE
lengths.id >= ids.id` subquery; SQL `SUM` is NULL over an empty or
all-NULL set and skips NULL addends otherwise. -/
def patchsetTailLen (db : Db) (i : Int) : Option Int :=
  let vals := (db.patchsets.filter (fun r => i ≤ r.id)).filterMap
    (fun r => r.b2_length)
  if vals.isEmpty then none else some vals.sum

/-- `select_small_patchsets`: the patchsets whose tail sum of
`b2_length` (from their id upward) is below `max_manifest_len`, ordered
by id descending. -/
def select_small_patchsets (db : Db) (max_manifest_len : Int) :
    List (Int × Option String) :=
  ((db.patchsets.insertionSort (fun a b => b.id ≤ a.id)).filter (fun r =>
      match patchsetTailLen db r.id with
      | none => false
      | some s => decide (s < max_manifest_len))).map
    (fun r => (r.id, r.b2_file_id))

/-- `upload_patchset`: insert a default patchsets row, upload the
change-set blob as `manifest_<id>`, and fill in the row. -/
def upload_patchset (client : Client) (db : Db) (patchset : List UInt8) :
    Db × String :=
  let pair := insert_patchset db
  let name := "manifest_" ++ toString pair.2
  let up := client.upload name patchset
  (update_patchset pair.1 pair.2 up.1 up.2, name)

structure CollectPatchsetsResult where
  db : Db
  downloaded : List String
  uploaded : List String
  removed : List (String × String)
deriving Repr, DecidableEq

/-- `Manifest::collect_small_patchsets`: select the small tail; fail
with fewer than two candidates; otherwise download the selected
patchsets oldest-first into a changegroup (merging modelled as
concatenation of the downloaded streams), upload the combined
change-set as a new patchset, delete the old rows, commit, then remove
the old blobs remotely.  The result is the committed state plus the
remote-effect logs. -/
def collect_small_patchsets (max_manifest_len : Int) (client : Client)
    (download : String → List UInt8) (db : Db) :
    Except String CollectPatchsetsResult :=
  let small := select_small_patchsets db max_manifest_len
  if small.length ≤ 1 then .error "Not enough small patchsets"
  else
    let names := small.reverse.map (fun pr => "manifest_" ++ toString pr.1)
    let merged := (names.map download).flatten
    let pair := upload_patchset client db merged
    let db2 := small.foldl (fun d pr => delete_patchset d pr.1) pair.1
    .ok { db := db2, downloaded := names, uploaded := [pair.2],
          removed := small.map (fun pr =>
            ("manifest_" ++ toString pr.1, pr.2.getD "")) }

/-- The in-flight archive: pre-allocated id and append-only scratch
file. -/
structure InflightArchive where
  id : Int
  blocks : List UInt8
deriving Repr, DecidableEq

structure UpdateState where
  db : Db
  archive : InflightArchive
deriving Repr, DecidableEq

/-- `store_block`: compute the digest; if a blocks row with it exists,
only insert a new_mappings row; otherwise insert the block, the
mapping, and append the block to the in-flight archive, rolling the
archive over (upload, row update, new-file promotion) once it reaches
`min_archive_len`.  The sha256 hash is an external primitive passed as
a parameter.  Returns the new state and the names of blobs uploaded. -/
def store_block (hash : List UInt8 → List UInt8) (min_archive_len : Nat)
    (client : Client) (new_file_id offset : Int) (block : List UInt8)
    (st : UpdateState) : UpdateState × List String :=
  let dg := hash block
  match select_block st.db dg with
  | some block_id =>
    ({ st with db := insert_new_mapping st.db new_file_id offset block_id }, [])
  | none =>
    let pair := insert_block st.db dg st.archive.id
    let d2 := insert_new_mapping pair.1 new_file_id offset pair.2
    let a1 : InflightArchive :=
      { st.archive with blocks := Archive.store_block st.archive.blocks dg block }
    if a1.blocks.length < min_archive_len then ({ db := d2, archive := a1 }, [])
    else
      let pair2 := insert_archive d2
      let name := "archive_" ++ toString a1.id
      let up := client.upload name a1.blocks
      let d4 := update_archive pair2.1 a1.id (Int.ofNat a1.blocks.length) up.1 up.2
      let d5 := collect_closed_new_files d4
      ({ db := d5, archive := { id := pair2.2, blocks := [] } }, [name])

structure Stage1 where
  db : Db
  uploads : List String
  unused : List (Int × Option String)
deriving Repr, DecidableEq

/-- `Manifest::update` up to (and including) garbage collection: clear
the visited table, attach the change-capture session, allocate the
initial archive, run the producer, then upload or delete the final
in-flight archive, promote closed new files, and garbage-collect.  The
`interrupted` flag is the value of the process-wide flag sampled after
the producer returns; the producer reports the blobs it uploaded. -/
def update_stage1 (keep_unvisited_files : Bool) (client : Client)
    (interrupted : Bool)
    (producer : UpdateState → Except String (UpdateState × List String))
    (db0 : Db) : Except String Stage1 :=
  let trans1 := delete_visited_files db0
  let pair := insert_archive trans1
  match producer { db := pair.1, archive := { id := pair.2, blocks := [] } } with
  | .error e => .error e
  | .ok prodRes =>
    let st1 := prodRes.1
    let archive_len := st1.archive.blocks.length
    let step :=
      if !interrupted && archive_len != 0 then
        let name := "archive_" ++ toString st1.archive.id
        let up := client.upload name st1.archive.blocks
        let d := update_archive st1.db st1.archive.id (Int.ofNat archive_len)
          up.1 up.2
        (collect_closed_new_files d, [name])
      else if interrupted || pair.2 == st1.archive.id then
        (delete_archive st1.db st1.archive.id, ([] : List String))
      else (st1.db, [])
    let gc := delete_unused_archives step.1 (interrupted || keep_unvisited_files)
    .ok { db := gc.1, uploads := prodRes.2 ++ step.2, unused := gc.2 }

structure UpdateResult where
  db : Db
  uploads : List String
  removed : List (String × String)
  committed : Bool
deriving Repr, DecidableEq

/-- `Manifest::update`: run the session (stage 1), emit the captured
change-set (the sqlite session serialisation is an external primitive,
passed as `session_patchset`, applied to the attach-time state and the
current state; the temporary tables are not captured).  An empty
change-set aborts with "No changes recorded" and the transaction is
dropped without commit (all in-transaction mutations roll back);
otherwise the change-set is uploaded as a patchset, the transaction
commits, and the unused archives' blobs are removed remotely. -/
def update (keep_unvisited_files : Bool) (client : Client)
    (interrupted : Bool)
    (session_patchset : Db → Db → List UInt8)
    (producer : UpdateState → Except String (UpdateState × List String))
    (db0 : Db) : Except String UpdateResult :=
  match update_stage1 keep_unvisited_files client interrupted producer db0 with
  | .error e => .error e
  | .ok s1 =>
    let patchset := session_patchset db0 s1.db
    if patchset.isEmpty then
      .ok { db := db0, uploads := s1.uploads, removed := [], committed := false }
    else
      let pair := upload_patchset client s1.db patchset
      .ok { db := pair.1, uploads := s1.uploads ++ [pair.2],
            removed := s1.unused.map (fun u =>
              ("archive_" ++ toString u.1, u.2.getD "")),
            committed := true }



/-- Test fixture: a pure client whose upload returns the name as
b2_file_id and the content length as b2_length. -/
def wClient : Client := { upload := fun n c => (n, Int.ofNat c.length) }

/-- Test fixture: a small committed database used by the witnesses. -/
def wDb : Db :=
  { patchsets := [{ id := 1, b2_file_id := some "p1", b2_length := some 4 },
      { id := 2, b2_file_id := some "p2", b2_length := some 5 }]
  , archives :=
      [{ id := 1, length := some 1, b2_file_id := some "a1", b2_length := some 40 }]
  , files := [{ id := 3, path := [47], size := 1, mode := 420, symlink := none }]
  , blocks := [{ id := 5, digest := [9], archive_id := 1 }]
  , mappings := [{ file_id := 3, offset := 0, block_id := 5 }]
  , visited_files := []
  , new_files := []
  , new_mappings := []
  , next_patchset_id := 3
  , next_archive_id := 2
  , next_file_id := 4
  , next_block_id := 6 }

/-- Test fixture: the stage-1 result of a trivial session on `wDb`
(empty producer, nothing visited): the freshly inserted archive is
empty, so it is deleted again, and only the archive-id counter moves. -/
def wStage1 : Stage1 :=
  { db := { wDb with next_archive_id := 3 }, uploads := [], unused := [] }

/-! ## Restore (`Manifest::restore_files`, src/src/manifest.rs)

`restore_files` walks the selected files (outer loop); for each file it
groups the file's blocks by archive id and walks those archives (inner
loop), fetching each archive blob through an
`lru_cache::LruCache<i64, File>` of capacity `config.archive_cache_cap`:
a cache hit reuses (and promotes) the cached download, a miss downloads
the blob and inserts it, evicting the least-recently-used entry when
the cache is over capacity.  Only the download behaviour matters here,
so the cache is modelled as the capacity plus the list of cached
archive ids in most-recently-used-first order, and each file by its
list of distinct referenced archive ids. -/

structure LruCache where
  cap : Nat
  entries : List Int
deriving Repr, DecidableEq

/-- `LruCache::get_mut`: a hit promotes the key to most-recently-used
and reports `true`; a miss leaves the cache unchanged. -/
def LruCache.get_mut (c : LruCache) (k : Int) : LruCache × Bool :=
  if k ∈ c.entries then ({ c with entries := k :: c.entries.erase k }, true)
  else (c, false)

/-- `LruCache::insert`: insert the key as most-recently-used, dropping
the least-recently-used entries beyond the capacity. -/
def LruCache.insert (c : LruCache) (k : Int) : LruCache :=
  { c with entries := (k :: c.entries.erase k).take c.cap }

/-- The inner loop of `restore_files` for one file: walk the file's
referenced archive ids; on a cache miss download `archive_<id>` and
insert it.  Returns the final cache and the ids downloaded, in
order. -/
def restore_file_downloads (c : LruCache) : List Int → LruCache × List Int
  | [] => (c, [])
  | k :: ks =>
    let g := c.get_mut k
    if g.2 then restore_file_downloads g.1 ks
    else
      let rest := restore_file_downloads (g.1.insert k) ks
      (rest.1, k :: rest.2)

/-- The outer loop of `restore_files`: process the files in order,
threading the archive cache through, and concatenate the download
logs. -/
def restore_files_downloads (c : LruCache) :
    List (List Int) → LruCache × List Int
  | [] => (c, [])
  | f :: fs =>
    let r := restore_file_downloads c f
    let rest := restore_files_downloads r.1 fs
    (rest.1, r.2 ++ rest.2)


end Manifest

namespace Pack

/-! ## Pack codec (src/pack.rs)

`pack` compresses with zstd and seals with AES-256-GCM; `unpack`
reverses both.  The cryptographic and compression primitives are
external libraries (OpenSSL, zstd), not code of this repository; they
are modelled as parameters.  An `Aead` provides deterministic
encryption `encrypt key iv plaintext`, a tag function `tagOf key iv
ciphertext`, and authenticated decryption `decryptAuth key iv
ciphertext tag`; a `Zstd` provides `compress`/`decompress`.  Their
contracts (round-trip, tag soundness, and the idealised
collision-freeness of the authentication tag that AES-256-GCM provides
computationally) appear as hypotheses of the theorems.  The random
nonce produced by `rand_bytes` is passed in as the `iv` argument. -/

def KEY_LEN : Nat := 32

def IV_LEN : Nat := 12

def TAG_LEN : Nat := 16

structure Aead where
  encrypt : List UInt8 → List UInt8 → List UInt8 → List UInt8
  tagOf : List UInt8 → List UInt8 → List UInt8 → List UInt8
  decryptAuth :
    List UInt8 → List UInt8 → List UInt8 → List UInt8 → Option (List UInt8)

structure Zstd where
  compress : Int → List UInt8 → List UInt8
  decompress : List UInt8 → Option (List UInt8)

/-- `pack(key, compression_level, reader)`: compress the whole input,
encrypt it in place with a random nonce, and emit
`ciphertext ‖ iv ‖ tag`. -/
def pack (A : Aead) (Z : Zstd) (key : List UInt8) (compression_level : Int)
    (iv : List UInt8) (plaintext : List UInt8) : List UInt8 :=
  A.encrypt key iv (Z.compress compression_level plaintext) ++ iv ++
    A.tagOf key iv (A.encrypt key iv (Z.compress compression_level plaintext))

/-- `unpack(key, buf)`: require the minimum length, split off the
trailing `iv` and `tag`, decrypt-and-authenticate, and return the
decompressed plaintext read to EOF (decoder errors surface on read). -/
def unpack (A : Aead) (Z : Zstd) (key : List UInt8) (buf : List UInt8) :
    Except String (List UInt8) :=
  if buf.length < IV_LEN + TAG_LEN then .error "Buffer too short"
  else
    match A.decryptAuth key
        ((buf.drop (buf.length - IV_LEN - TAG_LEN)).take IV_LEN)
        (buf.take (buf.length - IV_LEN - TAG_LEN))
        (((buf.drop (buf.length - IV_LEN - TAG_LEN)).drop IV_LEN).take TAG_LEN) with
    | none => .error "Decrypt failed"
    | some b =>
      match Z.decompress b with
      | none => .error "Decompress failed"
      | some p => .ok p

/-- Concrete `Aead` used by the witness: identity encryption with a
tag that embeds the ciphertext and the nonce (injective in both, and of
length `TAG_LEN` for the 1-byte ciphertext the witness uses). -/
def toyAead : Aead :=
  { encrypt := fun _ _ b => b
  , tagOf := fun _ iv c => c ++ List.replicate 3 0 ++ iv
  , decryptAuth := fun _ iv c t =>
      if t = c ++ List.replicate 3 0 ++ iv then some c else none }

/-- Concrete `Zstd` used by the witness: identity compression. -/
def toyZstd : Zstd :=
  { compress := fun _ p => p, decompress := fun b => some b }

end Pack

namespace Split

theorem splitBuf_append_some (st : RollingSum) (a b : List UInt8) (pos : Nat)
    (h : (st.splitBuf a).1 = some pos) :
    (st.splitBuf (a ++ b)).1 = some pos := by
  induction a generalizing st pos with
  | nil => simp [RollingSum.splitBuf] at h
  | cons x rest ih =>
    simp only [RollingSum.splitBuf, List.cons_append] at h ⊢
    cases hb : isBoundary (rollStep st x) with
    | true => simp_all
    | false =>
      simp only [hb, Bool.false_eq_true, if_false] at h ⊢
      simp only [Option.map_eq_some'] at h ⊢
      obtain ⟨q, hq, rfl⟩ := h
      exact ⟨q, ih _ _ hq, rfl⟩

theorem splitBuf_append_none (st : RollingSum) (a b : List UInt8)
    (h : (st.splitBuf a).1 = none) :
    st.splitBuf (a ++ b) =
      ((((st.splitBuf a).2.splitBuf b).1.map (· + a.length)),
        ((st.splitBuf a).2.splitBuf b).2) := by
  induction a generalizing st with
  | nil => simp [RollingSum.splitBuf]
  | cons x rest ih =>
    simp only [RollingSum.splitBuf, List.cons_append] at h ⊢
    cases hb : isBoundary (rollStep st x) with
    | true => simp [hb] at h
    | false =>
      simp only [hb, Bool.false_eq_true, if_false] at h ⊢
      simp only [Option.map_eq_none'] at h
      simp only [List.append_eq]
      rw [ih _ h]
      simp only [Prod.mk.injEq]
      refine ⟨?_, trivial⟩
      cases hq : (((rollStep st x).splitBuf rest).2.splitBuf b).1 with
      | none => simp [hq]
      | some q => simp [hq, Nat.add_assoc]

theorem chunksFrom_eq_some (pending : List UInt8) (st : RollingSum) (buf : List UInt8)
    (pos : Nat) (h : (st.splitBuf buf).1 = some pos) :
    chunksFrom pending st buf =
      ((pending ++ buf.take pos) :: (chunksFrom [] RollingSum.new (buf.drop pos)).1,
        (chunksFrom [] RollingSum.new (buf.drop pos)).2) := by
  rw [chunksFrom]
  split <;> simp_all

theorem chunksFrom_eq_none (pending : List UInt8) (st : RollingSum) (buf : List UInt8)
    (h : (st.splitBuf buf).1 = none) :
    chunksFrom pending st buf = ([], pending ++ buf, (st.splitBuf buf).2) := by
  rw [chunksFrom]
  split <;> simp_all

theorem chunksFrom_append (pending : List UInt8) (st : RollingSum) (a b : List UInt8) :
    chunksFrom pending st (a ++ b) =
      ((chunksFrom pending st a).1 ++
          (chunksFrom (chunksFrom pending st a).2.1 (chunksFrom pending st a).2.2 b).1,
        (chunksFrom (chunksFrom pending st a).2.1 (chunksFrom pending st a).2.2 b).2) := by
  induction pending, st, a using chunksFrom.induct with
  | case1 pending st a pos h ih =>
    obtain ⟨h1, h2⟩ := splitBuf_pos_bounds st a pos h
    rw [chunksFrom_eq_some pending st a pos h]
    rw [chunksFrom_eq_some pending st (a ++ b) pos (splitBuf_append_some st a b pos h)]
    rw [List.take_append_of_le_length h2, List.drop_append_of_le_length h2]
    rw [ih]
    simp
  | case2 pending st a h =>
    rw [chunksFrom_eq_none pending st a h]
    have hd := splitBuf_append_none st a b h
    cases hq : ((st.splitBuf a).2.splitBuf b).1 with
    | some q =>
      have hsome : (st.splitBuf (a ++ b)).1 = some (q + a.length) := by
        rw [hd]; simp [hq]
      rw [chunksFrom_eq_some pending st (a ++ b) (q + a.length) hsome]
      rw [chunksFrom_eq_some (pending ++ a) (st.splitBuf a).2 b q hq]
      have hq2 := splitBuf_pos_bounds _ b q hq
      rw [List.take_append_eq_append_take, List.drop_append_eq_append_drop]
      have ht : a.take (q + a.length) = a := List.take_of_length_le (by omega)
      have hD : a.drop (q + a.length) = [] := List.drop_eq_nil_of_le (by omega)
      rw [ht, hD]
      simp only [List.nil_append, Nat.add_sub_cancel]
      simp
    | none =>
      have hnone : (st.splitBuf (a ++ b)).1 = none := by
        rw [hd]; simp [hq]
      rw [chunksFrom_eq_none pending st (a ++ b) hnone]
      rw [chunksFrom_eq_none (pending ++ a) (st.splitBuf a).2 b hq]
      rw [hd]
      simp

theorem chunksFrom_join (pending : List UInt8) (st : RollingSum) (buf : List UInt8) :
    (chunksFrom pending st buf).1.flatten ++ (chunksFrom pending st buf).2.1 =
      pending ++ buf := by
  induction pending, st, buf using chunksFrom.induct with
  | case1 pending st buf pos h ih =>
    rw [chunksFrom_eq_some pending st buf pos h]
    simp only [List.flatten_cons, List.append_assoc]
    rw [ih]
    simp [List.take_append_drop]
  | case2 pending st buf h =>
    rw [chunksFrom_eq_none pending st buf h]
    simp

theorem chunksFrom_ne_nil (pending : List UInt8) (st : RollingSum) (buf : List UInt8) :
    ∀ c ∈ (chunksFrom pending st buf).1, c ≠ [] := by
  induction pending, st, buf using chunksFrom.induct with
  | case1 pending st buf pos h ih =>
    rw [chunksFrom_eq_some pending st buf pos h]
    intro c hc
    rcases List.mem_cons.1 hc with hc | hc
    · subst hc
      obtain ⟨h1, h2⟩ := splitBuf_pos_bounds st buf pos h
      have : buf.take pos ≠ [] := by
        have hlen : (buf.take pos).length = min pos buf.length := List.length_take _ _
        intro hcontra
        rw [hcontra] at hlen
        simp at hlen
        omega
      simp [this]
    · exact ih c hc
  | case2 pending st buf h =>
    rw [chunksFrom_eq_none pending st buf h]
    simp

theorem except_bind_ok (a : α) (k : α → Except ε β) : (Except.ok a >>= k) = k a := rfl

theorem except_bind_error (e : ε) (k : α → Except ε β) :
    ((Except.error e : Except ε α) >>= k) = Except.error e := rfl

theorem except_pure_eq (a : α) : (pure a : Except ε α) = Except.ok a := rfl

theorem scanBuf_eq_some (f : σ → List UInt8 → Except ε σ) (s : σ) (pending : List UInt8)
    (st : RollingSum) (tail : List UInt8) (pos : Nat)
    (h : (st.splitBuf tail).1 = some pos) :
    scanBuf f s pending st tail =
      f s (pending ++ tail.take pos) >>= fun s' =>
        scanBuf f s' [] RollingSum.new (tail.drop pos) := by
  rw [scanBuf]
  split <;> simp_all

theorem scanBuf_eq_none (f : σ → List UInt8 → Except ε σ) (s : σ) (pending : List UInt8)
    (st : RollingSum) (tail : List UInt8)
    (h : (st.splitBuf tail).1 = none) :
    scanBuf f s pending st tail = .ok (s, pending ++ tail, (st.splitBuf tail).2) := by
  rw [scanBuf]
  split <;> simp_all

theorem scanBuf_spec (f : σ → List UInt8 → Except ε σ) (s : σ) (pending : List UInt8)
    (st : RollingSum) (tail : List UInt8) :
    scanBuf f s pending st tail =
      (chunksFrom pending st tail).1.foldlM f s >>= fun s' =>
        .ok (s', (chunksFrom pending st tail).2) := by
  induction s, pending, st, tail using scanBuf.induct f with
  | case1 s pending st tail pos h ih =>
    rw [scanBuf_eq_some f s pending st tail pos h]
    rw [chunksFrom_eq_some pending st tail pos h]
    rw [List.foldlM_cons]
    cases hf : f s (pending ++ tail.take pos) with
    | error e => simp [hf, except_bind_error]
    | ok s' =>
      simp only [hf, except_bind_ok]
      exact ih s'
  | case2 s pending st tail h =>
    rw [scanBuf_eq_none f s pending st tail h]
    rw [chunksFrom_eq_none pending st tail h]
    simp [List.foldlM_nil, except_pure_eq, except_bind_ok]

theorem splitReads_spec (f : σ → List UInt8 → Except ε σ)
    (reads : List (List UInt8)) (s : σ) (pending : List UInt8) (st : RollingSum)
    (hne : ∀ r ∈ reads, r ≠ []) :
    splitReads f reads s pending st =
      ((chunksFrom pending st reads.flatten).1 ++
        (if (chunksFrom pending st reads.flatten).2.1.isEmpty then []
          else [(chunksFrom pending st reads.flatten).2.1])).foldlM f s := by
  induction reads generalizing s pending st with
  | nil =>
    have h0 : (st.splitBuf []).1 = none := rfl
    simp only [List.flatten_nil]
    rw [chunksFrom_eq_none _ _ _ h0]
    simp only [splitReads, List.append_nil, List.nil_append]
    cases hp : pending.isEmpty with
    | true => simp [List.foldlM_nil, except_pure_eq]
    | false =>
      simp only [Bool.false_eq_true, if_false]
      simp only [List.foldlM_cons, List.foldlM_nil]
      cases hf : f s pending <;>
        simp [hf, except_bind_ok, except_bind_error, except_pure_eq]
  | cons r rs ih =>
    have hr : r.isEmpty = false := by
      have := hne r (List.mem_cons_self r rs)
      simpa [List.isEmpty_iff] using this
    have hne2 : ∀ q ∈ rs, q ≠ [] := fun q hq => hne q (List.mem_cons_of_mem r hq)
    simp only [splitReads, hr, Bool.false_eq_true, if_false]
    simp only [List.flatten_cons]
    rw [chunksFrom_append pending st r rs.flatten]
    rw [List.append_assoc, List.foldlM_append]
    rw [scanBuf_spec]
    cases hfold : (chunksFrom pending st r).1.foldlM f s with
    | error e => simp [hfold, except_bind_error]
    | ok s' =>
      simp only [hfold, except_bind_ok]
      exact ih s' _ _ hne2

/-- C2: for every input byte stream, `split(reader, consumer)` calls the
consumer once per chunk such that the concatenation of the consumed
slices equals the input, no consumed slice is empty, the boundary
positions are a deterministic function of the input bytes (the result
only depends on `reads.flatten`, not on the read partitioning), and any
error returned by the consumer is propagated immediately as the result
of `split` (expressed by equality with the monadic fold of the consumer
over the chunk list, which stops at the first error). -/
theorem C2_split_correct {σ ε : Type} (f : σ → List UInt8 → Except ε σ) (s : σ)
    (reads : List (List UInt8)) (hne : ∀ r ∈ reads, r ≠ []) :
    (splitChunks reads.flatten).flatten = reads.flatten ∧
    (∀ c ∈ splitChunks reads.flatten, c ≠ []) ∧
    split f s reads = (splitChunks reads.flatten).foldlM f s := by
  refine ⟨?_, ?_, ?_⟩
  · unfold splitChunks
    have hj := chunksFrom_join [] RollingSum.new reads.flatten
    cases hp : (chunksFrom [] RollingSum.new reads.flatten).2.1.isEmpty with
    | true =>
      have : (chunksFrom [] RollingSum.new reads.flatten).2.1 = [] :=
        List.isEmpty_iff.1 hp
      simp only [hp, if_true, List.append_nil]
      rw [this, List.append_nil] at hj
      simpa using hj
    | false =>
      simp only [hp, Bool.false_eq_true, if_false, List.flatten_append,
        List.flatten_cons, List.flatten_nil, List.append_nil]
      simpa using hj
  · intro c hc
    unfold splitChunks at hc
    rcases List.mem_append.1 hc with hc | hc
    · exact chunksFrom_ne_nil _ _ _ c hc
    · rcases hp : (chunksFrom [] RollingSum.new reads.flatten).2.1.isEmpty with _ | _
      · rw [hp] at hc
        simp at hc
        subst hc
        simpa [List.isEmpty_iff] using hp
      · rw [hp] at hc
        simp at hc
  · unfold split
    rw [splitReads_spec f reads s [] RollingSum.new hne]
    rfl

/-- Witness for C2 at a concrete consumer and read sequence. -/
theorem C2_split_correct_witness :
    (∀ r ∈ ([[1, 2], [3]] : List (List UInt8)), r ≠ []) ∧
    ((splitChunks ([[1, 2], [3]] : List (List UInt8)).flatten).flatten =
        ([[1, 2], [3]] : List (List UInt8)).flatten ∧
      (∀ c ∈ splitChunks ([[1, 2], [3]] : List (List UInt8)).flatten, c ≠ []) ∧
      split (fun (acc : List (List UInt8)) c => (Except.ok (acc ++ [c]) : Except Unit _))
          [] ([[1, 2], [3]] : List (List UInt8)) =
        (splitChunks ([[1, 2], [3]] : List (List UInt8)).flatten).foldlM
          (fun acc c => Except.ok (acc ++ [c])) []) :=
  ⟨by decide, C2_split_correct _ [] [[1, 2], [3]] (by decide)⟩

theorem WINDOW_SIZE_eq : WINDOW_SIZE = 64 := rfl

theorem CHAR_OFFSET_eq : CHAR_OFFSET = 31 := rfl

theorem WINDOW_MASK_eq : WINDOW_MASK = 63 := rfl

theorem uint8_toNat_lt (x : UInt8) : x.toNat < 256 := x.toNat_lt

theorem wadd_eq (a b : Nat) (h : a + b < USIZE_MOD) : wadd a b = a + b :=
  Nat.mod_eq_of_lt h

theorem wsub_eq (a b : Nat) (hba : b ≤ a) (ha : a < USIZE_MOD) : wsub a b = a - b := by
  unfold wsub USIZE_MOD
  unfold USIZE_MOD at ha
  have hb : b % 2 ^ 64 = b := Nat.mod_eq_of_lt (lt_of_le_of_lt hba ha)
  rw [hb]
  have h1 : a + (2 ^ 64 - b) = (a - b) + 2 ^ 64 := by omega
  rw [h1, Nat.add_mod_right]
  exact Nat.mod_eq_of_lt (by omega)

theorem sum_map_le (l : List UInt8) :
    (l.map (fun x => x.toNat)).sum ≤ l.length * 255 := by
  induction l with
  | nil => simp
  | cons b r ih =>
    have := uint8_toNat_lt b
    simp only [List.map_cons, List.sum_cons, List.length_cons]
    omega

theorem wsum_le (w : Nat) (l : List UInt8) :
    wsum w l ≤ w * (l.map (fun x => x.toNat)).sum := by
  induction l generalizing w with
  | nil => simp [wsum]
  | cons b r ih =>
    simp only [wsum, List.map_cons, List.sum_cons]
    have h1 := ih (w - 1)
    have h2 : (w - 1) * (r.map (fun x => x.toNat)).sum ≤
        w * (r.map (fun x => x.toNat)).sum :=
      Nat.mul_le_mul_right _ (Nat.sub_le _ _)
    have h3 : w * (b.toNat + (r.map (fun x => x.toNat)).sum) =
        w * b.toNat + w * (r.map (fun x => x.toNat)).sum := by ring
    omega

theorem wsum_succ (w : Nat) (l : List UInt8) (h : l.length ≤ w) :
    wsum (w + 1) l = (l.map (fun x => x.toNat)).sum + wsum w l := by
  induction l generalizing w with
  | nil => simp [wsum]
  | cons b r ih =>
    simp only [wsum, List.map_cons, List.sum_cons, Nat.add_sub_cancel]
    simp only [List.length_cons] at h
    have hw : 1 ≤ w := by omega
    have hr : r.length ≤ w - 1 := by omega
    have hih := ih (w - 1) hr
    have hww : w - 1 + 1 = w := by omega
    rw [hww] at hih
    rw [hih]
    have hmul : w * b.toNat + b.toNat = (w + 1) * b.toNat := by ring
    omega

theorem wsum_append_singleton (w : Nat) (l : List UInt8) (b : UInt8)
    (h : l.length ≤ w) :
    wsum w (l ++ [b]) = wsum w l + (w - l.length) * b.toNat := by
  induction l generalizing w with
  | nil => simp [wsum]
  | cons x r ih =>
    simp only [List.cons_append, wsum, List.length_cons]
    simp only [List.length_cons] at h
    simp only [List.append_eq]
    rw [ih (w - 1) (by omega)]
    have hs : w - 1 - r.length = w - (r.length + 1) := by omega
    rw [hs]
    omega

theorem wsum_replicate_zero (w n : Nat) : wsum w (List.replicate n 0) = 0 := by
  induction n generalizing w with
  | zero => simp [wsum]
  | succ m ih => simp [List.replicate, wsum, ih]

theorem queue_sum (st : RollingSum) :
    ((queue st).map (fun x => x.toNat)).sum = (st.win.map (fun x => x.toNat)).sum := by
  unfold queue
  rw [List.map_append, List.sum_append]
  conv_rhs => rw [← List.take_append_drop st.pos st.win]
  rw [List.map_append, List.sum_append]
  omega

theorem queue_length (st : RollingSum) : (queue st).length = st.win.length := by
  unfold queue
  simp only [List.length_append, List.length_drop, List.length_take]
  omega

theorem queue_eq_cons (st : RollingSum) (hpos : st.pos < st.win.length) :
    queue st =
      st.win.getD st.pos 0 :: (st.win.drop (st.pos + 1) ++ st.win.take st.pos) := by
  unfold queue
  rw [List.getD_eq_getElem st.win 0 hpos]
  rw [List.drop_eq_getElem_cons hpos]
  rw [List.cons_append]

theorem queue_rollStep (st : RollingSum) (b : UInt8)
    (hlen : st.win.length = WINDOW_SIZE) (hpos : st.pos < WINDOW_SIZE) :
    queue (rollStep st b) =
      (st.win.drop (st.pos + 1) ++ st.win.take st.pos) ++ [b] := by
  have hposl : st.pos < st.win.length := by rw [hlen]; exact hpos
  have hwin : (rollStep st b).win = st.win.set st.pos b := rfl
  have hpos2 : (rollStep st b).pos = (st.pos + 1) % 64 := by
    show (st.pos + 1) &&& WINDOW_MASK = (st.pos + 1) % 64
    rw [WINDOW_MASK_eq]
    have h63 : (63 : Nat) = 2 ^ 6 - 1 := by norm_num
    rw [h63, Nat.and_pow_two_sub_one_eq_mod]
  have hset : st.win.set st.pos b =
      (st.win.take st.pos ++ [b]) ++ st.win.drop (st.pos + 1) := by
    rw [List.set_eq_take_cons_drop b hposl]
    simp
  have hu : (st.win.take st.pos ++ [b]).length = st.pos + 1 := by
    simp [List.length_take]
    omega
  unfold queue
  rw [hwin, hpos2, hset]
  rw [WINDOW_SIZE_eq] at hlen hpos
  rcases Nat.lt_or_ge (st.pos + 1) 64 with hlt | hge
  · have hmod : (st.pos + 1) % 64 = st.pos + 1 := Nat.mod_eq_of_lt hlt
    rw [hmod]
    rw [List.drop_left' hu, List.take_left' hu]
    simp
  · have hp63 : st.pos = 63 := by omega
    have hmod : (st.pos + 1) % 64 = 0 := by rw [hp63]
    have hv : st.win.drop (st.pos + 1) = [] := by
      apply List.drop_eq_nil_of_le
      omega
    rw [hmod, hv]
    simp

theorem rollStep_pos_mod (st : RollingSum) (b : UInt8) :
    (rollStep st b).pos = (st.pos + 1) % 64 := by
  show (st.pos + 1) &&& WINDOW_MASK = (st.pos + 1) % 64
  rw [WINDOW_MASK_eq]
  have h63 : (63 : Nat) = 2 ^ 6 - 1 := by norm_num
  rw [h63, Nat.and_pow_two_sub_one_eq_mod]

theorem rollStep_inv (st : RollingSum) (b : UInt8)
    (hlen : st.win.length = WINDOW_SIZE) (hpos : st.pos < WINDOW_SIZE)
    (hs1 : st.s1 =
      WINDOW_SIZE * CHAR_OFFSET + ((queue st).map (fun x => x.toNat)).sum)
    (hs2 : st.s2 =
      WINDOW_SIZE * (WINDOW_SIZE - 1) * CHAR_OFFSET + wsum WINDOW_SIZE (queue st)) :
    (rollStep st b).win.length = WINDOW_SIZE ∧
    (rollStep st b).pos < WINDOW_SIZE ∧
    (rollStep st b).s1 =
      WINDOW_SIZE * CHAR_OFFSET +
        ((queue (rollStep st b)).map (fun x => x.toNat)).sum ∧
    (rollStep st b).s2 =
      WINDOW_SIZE * (WINDOW_SIZE - 1) * CHAR_OFFSET +
        wsum WINDOW_SIZE (queue (rollStep st b)) := by
  rw [WINDOW_SIZE_eq] at hlen hpos hs1 hs2 ⊢
  rw [CHAR_OFFSET_eq] at hs1 hs2 ⊢
  have hM : USIZE_MOD = 18446744073709551616 := by norm_num [USIZE_MOD]
  have hposl : st.pos < st.win.length := by omega
  have hq := queue_eq_cons st hposl
  have hq' := queue_rollStep st b (by rw [hlen]; rfl) (by rw [WINDOW_SIZE_eq]; omega)
  have hqlen : (queue st).length = 64 := by rw [queue_length, hlen]
  have hqtlen : (st.win.drop (st.pos + 1) ++ st.win.take st.pos).length = 63 := by
    rw [hq] at hqlen
    simpa using hqlen
  have hqsum : ((queue st).map (fun x => x.toNat)).sum =
      (st.win.getD st.pos 0).toNat +
        (((st.win.drop (st.pos + 1) ++ st.win.take st.pos)).map
          (fun x => x.toNat)).sum := by
    rw [hq]; simp
  have hwsumq : wsum 64 (queue st) =
      64 * (st.win.getD st.pos 0).toNat +
        wsum 63 (st.win.drop (st.pos + 1) ++ st.win.take st.pos) := by
    rw [hq]
    simp [wsum]
  have hob := uint8_toNat_lt (st.win.getD st.pos 0)
  have hbb := uint8_toNat_lt b
  have hqtb := sum_map_le (st.win.drop (st.pos + 1) ++ st.win.take st.pos)
  rw [hqtlen] at hqtb
  have hwb := wsum_le 63 (st.win.drop (st.pos + 1) ++ st.win.take st.pos)
  have hs1' : (rollStep st b).s1 =
      st.s1 + b.toNat - (st.win.getD st.pos 0).toNat := by
    show wsub (wadd st.s1 b.toNat) (st.win.getD st.pos 0).toNat = _
    rw [wadd_eq _ _ (by rw [hM]; omega)]
    rw [wsub_eq _ _ (by omega) (by rw [hM]; omega)]
  have hs2' : (rollStep st b).s2 =
      st.s2 + (rollStep st b).s1 -
        64 * ((st.win.getD st.pos 0).toNat + 31) := by
    show wsub (wadd st.s2 (rollStep st b).s1)
        (WINDOW_SIZE * ((st.win.getD st.pos 0).toNat + CHAR_OFFSET)) = _
    rw [WINDOW_SIZE_eq, CHAR_OFFSET_eq]
    rw [wadd_eq _ _ (by rw [hM]; omega)]
    rw [wsub_eq _ _ (by omega) (by rw [hM]; omega)]
  have hq'sum :
      ((queue (rollStep st b)).map (fun x => x.toNat)).sum =
        (((st.win.drop (st.pos + 1) ++ st.win.take st.pos)).map
          (fun x => x.toNat)).sum + b.toNat := by
    rw [hq']
    simp
    omega
  have hq'wsum : wsum 64 (queue (rollStep st b)) =
      wsum 63 (st.win.drop (st.pos + 1) ++ st.win.take st.pos) +
        (((st.win.drop (st.pos + 1) ++ st.win.take st.pos)).map
          (fun x => x.toNat)).sum + b.toNat := by
    rw [hq']
    rw [wsum_append_singleton 64 _ b (by omega)]
    rw [hqtlen]
    have h64 : (64 : Nat) = 63 + 1 := by norm_num
    rw [h64, wsum_succ 63 _ (by omega)]
    omega
  refine ⟨?_, ?_, ?_, ?_⟩
  · show (st.win.set st.pos b).length = 64
    rw [List.length_set]; exact hlen
  · rw [rollStep_pos_mod]
    exact Nat.mod_lt _ (by norm_num)
  · rw [hs1', hq'sum]
    omega
  · rw [hs2', hs1', hq'wsum]
    omega

theorem new_inv :
    RollingSum.new.win.length = WINDOW_SIZE ∧
    RollingSum.new.pos < WINDOW_SIZE ∧
    RollingSum.new.s1 =
      WINDOW_SIZE * CHAR_OFFSET + ((queue RollingSum.new).map (fun x => x.toNat)).sum ∧
    RollingSum.new.s2 =
      WINDOW_SIZE * (WINDOW_SIZE - 1) * CHAR_OFFSET +
        wsum WINDOW_SIZE (queue RollingSum.new) := by
  refine ⟨by simp [RollingSum.new], by simp [RollingSum.new, WINDOW_SIZE_eq], ?_, ?_⟩
  · show WINDOW_SIZE * CHAR_OFFSET = _
    have : queue RollingSum.new = List.replicate WINDOW_SIZE 0 := by
      simp [queue, RollingSum.new]
    rw [this]
    have hz : ((List.replicate WINDOW_SIZE (0 : UInt8)).map
        (fun x => x.toNat)).sum = 0 := by
      simp [List.map_replicate]
    rw [hz]
    omega
  · show WINDOW_SIZE * (WINDOW_SIZE - 1) * CHAR_OFFSET = _
    have : queue RollingSum.new = List.replicate WINDOW_SIZE 0 := by
      simp [queue, RollingSum.new]
    rw [this, wsum_replicate_zero]
    omega

theorem foldl_inv (l : List UInt8) (st : RollingSum)
    (hlen : st.win.length = WINDOW_SIZE) (hpos : st.pos < WINDOW_SIZE)
    (hs1 : st.s1 =
      WINDOW_SIZE * CHAR_OFFSET + ((queue st).map (fun x => x.toNat)).sum)
    (hs2 : st.s2 =
      WINDOW_SIZE * (WINDOW_SIZE - 1) * CHAR_OFFSET + wsum WINDOW_SIZE (queue st)) :
    (l.foldl rollStep st).win.length = WINDOW_SIZE ∧
    (l.foldl rollStep st).pos < WINDOW_SIZE ∧
    (l.foldl rollStep st).s1 =
      WINDOW_SIZE * CHAR_OFFSET +
        ((queue (l.foldl rollStep st)).map (fun x => x.toNat)).sum ∧
    (l.foldl rollStep st).s2 =
      WINDOW_SIZE * (WINDOW_SIZE - 1) * CHAR_OFFSET +
        wsum WINDOW_SIZE (queue (l.foldl rollStep st)) := by
  induction l generalizing st with
  | nil => exact ⟨hlen, hpos, hs1, hs2⟩
  | cons b r ih =>
    simp only [List.foldl_cons]
    obtain ⟨h1, h2, h3, h4⟩ := rollStep_inv st b hlen hpos hs1 hs2
    exact ih _ h1 h2 h3 h4

/-- C9: for every input byte sequence processed by `RollingSum::split`
(every rolling-sum state occurring there is `l.foldl rollStep
RollingSum.new` for the bytes `l` scanned since the last reset), the
invariants `s1 = WINDOW_SIZE * CHAR_OFFSET + (sum of the current window
bytes)` and `s2 ≥ WINDOW_SIZE * (old_val + CHAR_OFFSET)` hold, so for
any incoming byte the `usize` subtractions `s1 -= old_val` and
`s2 -= WINDOW_SIZE * (old_val + CHAR_OFFSET)` never underflow: the
subtrahend is bounded by the (wrap-free) minuend at both subtraction
points. -/
theorem C9_rolling_sum_no_underflow (l : List UInt8) (b : UInt8) :
    (l.foldl rollStep RollingSum.new).s1 =
      WINDOW_SIZE * CHAR_OFFSET +
        (((l.foldl rollStep RollingSum.new).win.map (fun x => x.toNat)).sum) ∧
    WINDOW_SIZE *
        (((l.foldl rollStep RollingSum.new).win.getD
            (l.foldl rollStep RollingSum.new).pos 0).toNat + CHAR_OFFSET) ≤
      (l.foldl rollStep RollingSum.new).s2 ∧
    ((l.foldl rollStep RollingSum.new).win.getD
        (l.foldl rollStep RollingSum.new).pos 0).toNat ≤
      wadd (l.foldl rollStep RollingSum.new).s1 b.toNat ∧
    WINDOW_SIZE *
        (((l.foldl rollStep RollingSum.new).win.getD
            (l.foldl rollStep RollingSum.new).pos 0).toNat + CHAR_OFFSET) ≤
      wadd (l.foldl rollStep RollingSum.new).s2
        (wsub (wadd (l.foldl rollStep RollingSum.new).s1 b.toNat)
          ((l.foldl rollStep RollingSum.new).win.getD
            (l.foldl rollStep RollingSum.new).pos 0).toNat) := by
  obtain ⟨hn1, hn2, hn3, hn4⟩ := new_inv
  obtain ⟨hlen, hpos, hs1, hs2⟩ := foldl_inv l RollingSum.new hn1 hn2 hn3 hn4
  set st := l.foldl rollStep RollingSum.new with hst
  rw [WINDOW_SIZE_eq] at hlen hpos hs1 hs2 ⊢
  rw [CHAR_OFFSET_eq] at hs1 hs2 ⊢
  have hM : USIZE_MOD = 18446744073709551616 := by norm_num [USIZE_MOD]
  have hposl : st.pos < st.win.length := by omega
  have hq := queue_eq_cons st hposl
  have hqlen : (queue st).length = 64 := by rw [queue_length, hlen]
  have hqtlen : (st.win.drop (st.pos + 1) ++ st.win.take st.pos).length = 63 := by
    rw [hq] at hqlen
    simpa using hqlen
  have hqsum : ((queue st).map (fun x => x.toNat)).sum =
      (st.win.getD st.pos 0).toNat +
        (((st.win.drop (st.pos + 1) ++ st.win.take st.pos)).map
          (fun x => x.toNat)).sum := by
    rw [hq]; simp
  have hwsumq : wsum 64 (queue st) =
      64 * (st.win.getD st.pos 0).toNat +
        wsum 63 (st.win.drop (st.pos + 1) ++ st.win.take st.pos) := by
    rw [hq]
    simp [wsum]
  have hob := uint8_toNat_lt (st.win.getD st.pos 0)
  have hbb := uint8_toNat_lt b
  have hqtb := sum_map_le (st.win.drop (st.pos + 1) ++ st.win.take st.pos)
  rw [hqtlen] at hqtb
  have hwb := wsum_le 63 (st.win.drop (st.pos + 1) ++ st.win.take st.pos)
  have hwinsum := queue_sum st
  have ha1 : wadd st.s1 b.toNat = st.s1 + b.toNat :=
    wadd_eq _ _ (by rw [hM]; omega)
  have ha2 : wsub (wadd st.s1 b.toNat) (st.win.getD st.pos 0).toNat =
      st.s1 + b.toNat - (st.win.getD st.pos 0).toNat := by
    rw [ha1]
    exact wsub_eq _ _ (by omega) (by rw [hM]; omega)
  have ha3 : wadd st.s2 (st.s1 + b.toNat - (st.win.getD st.pos 0).toNat) =
      st.s2 + (st.s1 + b.toNat - (st.win.getD st.pos 0).toNat) :=
    wadd_eq _ _ (by rw [hM]; omega)
  refine ⟨by omega, by omega, by rw [ha1]; omega, ?_⟩
  rw [ha2, ha3]
  omega

end Split

namespace Manifest

theorem u32be_length (n : Nat) : (u32be n).length = 4 := rfl

theorem beVal_u32be (n : Nat) (h : n < 2 ^ 32) : beVal (u32be n) = n := by
  have h1 : (UInt8.ofNat (n / 2 ^ 24 % 256)).toNat = n / 2 ^ 24 % 256 % 256 := rfl
  have h2 : (UInt8.ofNat (n / 2 ^ 16 % 256)).toNat = n / 2 ^ 16 % 256 % 256 := rfl
  have h3 : (UInt8.ofNat (n / 2 ^ 8 % 256)).toNat = n / 2 ^ 8 % 256 % 256 := rfl
  have h4 : (UInt8.ofNat (n % 256)).toNat = n % 256 % 256 := rfl
  show ((((0 * 256 + (UInt8.ofNat (n / 2 ^ 24 % 256)).toNat) * 256 +
      (UInt8.ofNat (n / 2 ^ 16 % 256)).toNat) * 256 +
      (UInt8.ofNat (n / 2 ^ 8 % 256)).toNat) * 256 +
      (UInt8.ofNat (n % 256)).toNat) = n
  rw [h1, h2, h3, h4]
  omega

theorem archiveBytes_foldl (pairs : List (List UInt8 × List UInt8)) (acc : List UInt8) :
    pairs.foldl (fun acc p => Archive.store_block acc p.1 p.2) acc =
      acc ++ (pairs.map (fun p => p.1 ++ u32be p.2.length ++ p.2)).flatten := by
  induction pairs generalizing acc with
  | nil => simp
  | cons p ps ih =>
    simp only [List.foldl_cons, List.map_cons, List.flatten_cons]
    rw [ih]
    simp [Archive.store_block]

theorem archiveBytes_eq (pairs : List (List UInt8 × List UInt8)) :
    archiveBytes pairs =
      (pairs.map (fun p => p.1 ++ u32be p.2.length ++ p.2)).flatten := by
  unfold archiveBytes
  rw [archiveBytes_foldl]
  simp

theorem read_flatten {σ : Type} (f : σ → List UInt8 → List UInt8 → Except String σ)
    (s : σ) (pairs : List (List UInt8 × List UInt8))
    (h : ∀ p ∈ pairs, p.1.length = DIGESTBYTES ∧ p.2.length < 2 ^ 32) :
    Archive.read f s
        ((pairs.map (fun p => p.1 ++ u32be p.2.length ++ p.2)).flatten) =
      pairs.foldlM (fun s p => f s p.1 p.2) s := by
  induction pairs generalizing s with
  | nil =>
    rw [Archive.read]
    simp [DIGESTBYTES, List.foldlM_nil, Split.except_pure_eq]
  | cons p ps ih =>
    obtain ⟨hd, hb⟩ := h p (List.mem_cons_self p ps)
    have hne : ∀ q ∈ ps, q.1.length = DIGESTBYTES ∧ q.2.length < 2 ^ 32 :=
      fun q hq => h q (List.mem_cons_of_mem p hq)
    simp only [List.map_cons, List.flatten_cons]
    set tl := (ps.map (fun p => p.1 ++ u32be p.2.length ++ p.2)).flatten with htl0
    simp only [List.append_assoc]
    have hrest : (p.1 ++ (u32be p.2.length ++ (p.2 ++ tl))).drop DIGESTBYTES
        = u32be p.2.length ++ (p.2 ++ tl) := List.drop_left' hd
    have hdg : (p.1 ++ (u32be p.2.length ++ (p.2 ++ tl))).take DIGESTBYTES
        = p.1 := List.take_left' hd
    have hbe : (u32be p.2.length ++ (p.2 ++ tl)).take 4 = u32be p.2.length :=
      List.take_left' (u32be_length _)
    have hbody : (u32be p.2.length ++ (p.2 ++ tl)).drop 4 = p.2 ++ tl :=
      List.drop_left' (u32be_length _)
    have hblk : (p.2 ++ tl).take p.2.length = p.2 := List.take_left' rfl
    have htl : (p.2 ++ tl).drop p.2.length = tl := List.drop_left' rfl
    rw [Archive.read]
    rw [dif_neg (by
      simp only [List.length_append, hd]
      unfold DIGESTBYTES
      omega)]
    rw [hrest]
    rw [dif_neg (by
      simp only [List.length_append, u32be_length]
      omega)]
    rw [hbe, hbody, beVal_u32be _ hb]
    rw [dif_neg (by simp only [List.length_append]; omega)]
    rw [hdg, hblk, htl]
    rw [List.foldlM_cons]
    cases hf : f s p.1 p.2 with
    | error e => simp [hf, Split.except_bind_error]
    | ok s' =>
      simp only [hf, Split.except_bind_ok]
      exact ih s' hne

/-- C10: for every finite sequence of (digest, block) pairs with
32-byte digests and block length below `2 ^ 32` (the source converts
the length with `u32::try_from(..).unwrap()`), reading back the stream
produced by `Archive::store_block` with `Archive::read` invokes the
consumer exactly once per pair, with the same digests and block bytes,
in the same order, and returns success: for any state-threading
consumer the read equals the monadic fold of the consumer over the
pairs, and a recording consumer returns exactly the stored pairs. -/
theorem foldlM_record (pairs acc : List (List UInt8 × List UInt8)) :
    pairs.foldlM (fun acc p =>
        (Except.ok (acc ++ [(p.1, p.2)]) :
          Except String (List (List UInt8 × List UInt8)))) acc =
      Except.ok (acc ++ pairs) := by
  induction pairs generalizing acc with
  | nil => simp [List.foldlM_nil, Split.except_pure_eq]
  | cons p ps ih =>
    rw [List.foldlM_cons]
    simp only [Split.except_bind_ok]
    rw [ih]
    simp

/-- C10: for every finite sequence of (digest, block) pairs with
32-byte digests and block length below `2 ^ 32` (the source converts
the length with `u32::try_from(..).unwrap()`), reading back the stream
produced by `Archive::store_block` with `Archive::read` invokes the
consumer exactly once per pair, with the same digests and block bytes,
in the same order, and returns success: for any state-threading
consumer the read equals the monadic fold of the consumer over the
pairs, and a recording consumer returns exactly the stored pairs. -/
theorem C10_archive_roundtrip {σ : Type}
    (f : σ → List UInt8 → List UInt8 → Except String σ) (s : σ)
    (pairs : List (List UInt8 × List UInt8))
    (h : ∀ p ∈ pairs, p.1.length = DIGESTBYTES ∧ p.2.length < 2 ^ 32) :
    Archive.read f s (archiveBytes pairs) =
      pairs.foldlM (fun s p => f s p.1 p.2) s ∧
    Archive.read (fun acc dg blk => Except.ok (acc ++ [(dg, blk)])) []
        (archiveBytes pairs) = Except.ok pairs := by
  constructor
  · rw [archiveBytes_eq]
    exact read_flatten f s pairs h
  · rw [archiveBytes_eq]
    rw [read_flatten _ _ pairs h]
    have := foldlM_record pairs []
    simpa using this

/-- Witness for C10 at a concrete pair sequence. -/
theorem C10_archive_roundtrip_witness :
    (∀ p ∈ [((List.replicate 32 0 : List UInt8), ([5, 6] : List UInt8))],
      p.1.length = DIGESTBYTES ∧ p.2.length < 2 ^ 32) ∧
    (Archive.read (fun acc dg blk => Except.ok (acc ++ [(dg, blk)]))
        ([] : List (List UInt8 × List UInt8))
        (archiveBytes [(List.replicate 32 0, [5, 6])]) =
      [((List.replicate 32 0 : List UInt8), ([5, 6] : List UInt8))].foldlM
        (fun acc p => Except.ok (acc ++ [(p.1, p.2)])) [] ∧
      Archive.read (fun acc dg blk => Except.ok (acc ++ [(dg, blk)]))
          ([] : List (List UInt8 × List UInt8))
          (archiveBytes [(List.replicate 32 0, [5, 6])]) =
        Except.ok [(List.replicate 32 0, [5, 6])]) :=
  ⟨by decide, C10_archive_roundtrip _ [] _ (by decide)⟩

/-- C4 counterexample: storing a single 3-byte block produces an
archive plaintext that is not the raw block bytes — `Archive::store_block`
writes the 32-byte digest and a 4-byte big-endian length before each
block's bytes, so the claimed "raw concatenation with no per-block
framing" is false on the code. -/
theorem C4_counterexample :
    archiveBytes [(List.replicate 32 0, [1, 2, 3])] ≠ [1, 2, 3] := by decide

/-- C4 (amended): the plaintext of every archive blob is the
concatenation, in insertion order, of per-block frames `digest ‖
block-length as big-endian u32 ‖ block bytes`; thanks to this framing
the block boundaries and contents are recoverable from the archive
stream alone via `Archive::read`, without consulting the manifest. -/
theorem C4_archive_framing (pairs : List (List UInt8 × List UInt8))
    (h : ∀ p ∈ pairs, p.1.length = DIGESTBYTES ∧ p.2.length < 2 ^ 32) :
    archiveBytes pairs =
      (pairs.map (fun p => p.1 ++ u32be p.2.length ++ p.2)).flatten ∧
    Archive.read (fun acc dg blk => Except.ok (acc ++ [(dg, blk)])) []
        (archiveBytes pairs) = Except.ok pairs := by
  refine ⟨archiveBytes_eq pairs, ?_⟩
  rw [archiveBytes_eq, read_flatten _ _ pairs h]
  simpa using foldlM_record pairs []

/-- Witness for the amended C4 at a concrete pair sequence. -/
theorem C4_archive_framing_witness :
    (∀ p ∈ [((List.replicate 32 1 : List UInt8), ([9] : List UInt8))],
      p.1.length = DIGESTBYTES ∧ p.2.length < 2 ^ 32) ∧
    (archiveBytes [(List.replicate 32 1, [9])] =
        ([((List.replicate 32 1 : List UInt8), ([9] : List UInt8))].map
          (fun p => p.1 ++ u32be p.2.length ++ p.2)).flatten ∧
      Archive.read (fun acc dg blk => Except.ok (acc ++ [(dg, blk)]))
          ([] : List (List UInt8 × List UInt8))
          (archiveBytes [(List.replicate 32 1, [9])]) =
        Except.ok [(List.replicate 32 1, [9])]) :=
  ⟨by decide, C4_archive_framing _ (by decide)⟩

end Manifest

namespace Pack

theorem IV_LEN_eq : IV_LEN = 12 := rfl

theorem TAG_LEN_eq : TAG_LEN = 16 := rfl

/-- Parsing of a well-formed blob `ciphertext ‖ iv ‖ tag`: `unpack`
recovers exactly the three components. -/
theorem unpack_parse (A : Aead) (Z : Zstd) (key c iv t : List UInt8)
    (hiv : iv.length = IV_LEN) (ht : t.length = TAG_LEN) :
    unpack A Z key (c ++ iv ++ t) =
      match A.decryptAuth key iv c t with
      | none => Except.error "Decrypt failed"
      | some b =>
        match Z.decompress b with
        | none => Except.error "Decompress failed"
        | some p => Except.ok p := by
  have hIV := IV_LEN_eq
  have hTAG := TAG_LEN_eq
  have hlen : (c ++ iv ++ t).length = c.length + IV_LEN + TAG_LEN := by
    simp [hiv, ht]
    omega
  have hdl : (c ++ iv ++ t).length - IV_LEN - TAG_LEN = c.length := by omega
  unfold unpack
  rw [if_neg (by omega)]
  rw [hdl]
  rw [List.append_assoc]
  rw [List.take_left' rfl, List.drop_left' rfl]
  rw [List.take_left' hiv, List.drop_left' hiv]
  rw [List.take_of_length_le (le_of_eq ht)]

theorem unpack_eq_of_auth_none (A : Aead) (Z : Zstd) (key c iv t : List UInt8)
    (hiv : iv.length = IV_LEN) (ht : t.length = TAG_LEN)
    (hda : A.decryptAuth key iv c t = none) :
    unpack A Z key (c ++ iv ++ t) = Except.error "Decrypt failed" := by
  rw [unpack_parse A Z key c iv t hiv ht]
  simp only [hda]

theorem unpack_eq_of_auth_some (A : Aead) (Z : Zstd) (key c iv t b q : List UInt8)
    (hiv : iv.length = IV_LEN) (ht : t.length = TAG_LEN)
    (hda : A.decryptAuth key iv c t = some b) (hdz : Z.decompress b = some q) :
    unpack A Z key (c ++ iv ++ t) = Except.ok q := by
  rw [unpack_parse A Z key c iv t hiv ht]
  simp only [hda, hdz]

/-- C1: reading `unpack(key, pack(key, level, plaintext))` to EOF
yields exactly the original plaintext, and changing any single byte of
the packed blob causes `unpack` to return an error instead of a
reader.  The compressor round-trip, the AEAD round-trip, the soundness
of authentication (only the canonical tag is accepted) and the
collision-freeness of the tag over (nonce, ciphertext) — which
AES-256-GCM provides computationally — are hypotheses about the
external primitives. -/
theorem C1_pack_unpack_roundtrip_tamper (A : Aead) (Z : Zstd)
    (key iv p : List UInt8) (compression_level : Int)
    (hiv : iv.length = IV_LEN)
    (htlen : (A.tagOf key iv
        (A.encrypt key iv (Z.compress compression_level p))).length = TAG_LEN)
    (hround : A.decryptAuth key iv
        (A.encrypt key iv (Z.compress compression_level p))
        (A.tagOf key iv (A.encrypt key iv (Z.compress compression_level p))) =
      some (Z.compress compression_level p))
    (hz : Z.decompress (Z.compress compression_level p) = some p)
    (hsound : ∀ iv2 c2 t2, A.decryptAuth key iv2 c2 t2 ≠ none →
      t2 = A.tagOf key iv2 c2)
    (hinj : ∀ iv2 c2, iv2.length = IV_LEN →
      c2.length = (A.encrypt key iv (Z.compress compression_level p)).length →
      A.tagOf key iv2 c2 =
        A.tagOf key iv (A.encrypt key iv (Z.compress compression_level p)) →
      iv2 = iv ∧ c2 = A.encrypt key iv (Z.compress compression_level p)) :
    unpack A Z key (pack A Z key compression_level iv p) = Except.ok p ∧
    ∀ i v, i < (pack A Z key compression_level iv p).length →
      (pack A Z key compression_level iv p).set i v ≠
        pack A Z key compression_level iv p →
      ∃ e, unpack A Z key ((pack A Z key compression_level iv p).set i v) =
        Except.error e := by
  have hpack : pack A Z key compression_level iv p =
      A.encrypt key iv (Z.compress compression_level p) ++ iv ++
        A.tagOf key iv (A.encrypt key iv (Z.compress compression_level p)) := rfl
  set c := A.encrypt key iv (Z.compress compression_level p) with hc
  set t := A.tagOf key iv c with ht
  have hIV := IV_LEN_eq
  have hTAG := TAG_LEN_eq
  constructor
  · rw [hpack]
    exact unpack_eq_of_auth_some A Z key c iv t _ p hiv htlen hround hz
  · intro i v hi hne
    rw [hpack] at hi hne ⊢
    simp only [List.length_append, hiv, htlen] at hi
    rcases Nat.lt_or_ge i c.length with hcase | hcase
    · have hset : (c ++ iv ++ t).set i v = c.set i v ++ iv ++ t := by
        rw [List.append_assoc, List.set_append_left _ _ hcase]
        simp
      rw [hset]
      cases hda : A.decryptAuth key iv (c.set i v) t with
      | none =>
        exact ⟨"Decrypt failed",
          unpack_eq_of_auth_none A Z key _ iv t hiv htlen hda⟩
      | some bb =>
        exfalso
        have h1 : t = A.tagOf key iv (c.set i v) :=
          hsound iv (c.set i v) t (by rw [hda]; simp)
        have h2 : A.tagOf key iv (c.set i v) = A.tagOf key iv c := by
          rw [← h1, ht]
        obtain ⟨-, hcc⟩ := hinj iv (c.set i v) hiv (List.length_set c i v) h2
        apply hne
        rw [hset, hcc]
    · rcases Nat.lt_or_ge i (c.length + IV_LEN) with hcase2 | hcase2
      · have hji : i - c.length < iv.length := by rw [hiv]; omega
        have hset : (c ++ iv ++ t).set i v =
            c ++ (iv.set (i - c.length) v ++ t) := by
          rw [List.append_assoc, List.set_append_right _ _ hcase,
            List.set_append_left _ _ hji]
        have hivlen : (iv.set (i - c.length) v).length = IV_LEN := by
          rw [List.length_set]; exact hiv
        rw [hset]
        rw [show c ++ (iv.set (i - c.length) v ++ t) =
            c ++ iv.set (i - c.length) v ++ t by simp]
        cases hda : A.decryptAuth key (iv.set (i - c.length) v) c t with
        | none =>
          exact ⟨"Decrypt failed",
            unpack_eq_of_auth_none A Z key c _ t hivlen htlen hda⟩
        | some bb =>
          exfalso
          have h1 : t = A.tagOf key (iv.set (i - c.length) v) c :=
            hsound _ c t (by rw [hda]; simp)
          have h2 : A.tagOf key (iv.set (i - c.length) v) c =
              A.tagOf key iv c := by rw [← h1, ht]
          obtain ⟨hivv, -⟩ := hinj (iv.set (i - c.length) v) c hivlen rfl h2
          apply hne
          rw [hset, hivv]
          simp
      · have hj2 : c.length + IV_LEN ≤ i := hcase2
        have hji : i - c.length - IV_LEN < t.length := by
          rw [htlen, hTAG, hIV]
          rw [hIV, hTAG] at hi
          omega
        have hivle : iv.length ≤ i - c.length := by rw [hiv]; omega
        have hset : (c ++ iv ++ t).set i v =
            c ++ (iv ++ t.set (i - c.length - iv.length) v) := by
          rw [List.append_assoc, List.set_append_right _ _ hcase,
            List.set_append_right _ _ hivle]
        have htlen2 : (t.set (i - c.length - iv.length) v).length = TAG_LEN := by
          rw [List.length_set]; exact htlen
        rw [hset]
        rw [show c ++ (iv ++ t.set (i - c.length - iv.length) v) =
            c ++ iv ++ t.set (i - c.length - iv.length) v by simp]
        cases hda : A.decryptAuth key iv c (t.set (i - c.length - iv.length) v) with
        | none =>
          exact ⟨"Decrypt failed",
            unpack_eq_of_auth_none A Z key c iv _ hiv htlen2 hda⟩
        | some bb =>
          exfalso
          have h1 : t.set (i - c.length - iv.length) v = A.tagOf key iv c :=
            hsound iv c _ (by rw [hda]; simp)
          apply hne
          rw [hset, h1, ← ht]
          simp

theorem toy_sound (key : List UInt8) : ∀ iv2 c2 t2 : List UInt8,
    toyAead.decryptAuth key iv2 c2 t2 ≠ none → t2 = toyAead.tagOf key iv2 c2 := by
  intro iv2 c2 t2 hne
  by_cases h : t2 = c2 ++ List.replicate 3 0 ++ iv2
  · exact h
  · refine absurd ?_ hne
    show (if t2 = c2 ++ List.replicate 3 0 ++ iv2 then some c2 else none) = none
    rw [if_neg h]

theorem toy_tag_inj (key iv2 c2 : List UInt8)
    (h12 : iv2.length = IV_LEN) (h1 : c2.length = 1)
    (heq : toyAead.tagOf key iv2 c2 =
      toyAead.tagOf key (List.replicate 12 3) [7]) :
    iv2 = List.replicate 12 3 ∧ c2 = [7] := by
  have heq2 : c2 ++ (List.replicate 3 0 ++ iv2) =
      ([7] : List UInt8) ++ (List.replicate 3 0 ++ List.replicate 12 3) := by
    simpa [toyAead, List.append_assoc] using heq
  obtain ⟨hc, hrest⟩ := List.append_inj heq2 (by simp [h1])
  obtain ⟨-, hivv⟩ := List.append_inj hrest (by simp)
  exact ⟨hivv, hc⟩

/-- Witness for C1 at the toy primitives and a concrete plaintext. -/
theorem C1_pack_unpack_roundtrip_tamper_witness :
    ((List.replicate 12 3 : List UInt8).length = IV_LEN ∧
      (toyAead.tagOf (List.replicate 32 0) (List.replicate 12 3)
        (toyAead.encrypt (List.replicate 32 0) (List.replicate 12 3)
          (toyZstd.compress 17 [7]))).length = TAG_LEN ∧
      toyAead.decryptAuth (List.replicate 32 0) (List.replicate 12 3)
          (toyAead.encrypt (List.replicate 32 0) (List.replicate 12 3)
            (toyZstd.compress 17 [7]))
          (toyAead.tagOf (List.replicate 32 0) (List.replicate 12 3)
            (toyAead.encrypt (List.replicate 32 0) (List.replicate 12 3)
              (toyZstd.compress 17 [7]))) =
        some (toyZstd.compress 17 [7]) ∧
      toyZstd.decompress (toyZstd.compress 17 [7]) = some [7]) ∧
    (unpack toyAead toyZstd (List.replicate 32 0)
        (pack toyAead toyZstd (List.replicate 32 0) 17 (List.replicate 12 3) [7]) =
      Except.ok [7] ∧
    ∀ i v,
      i < (pack toyAead toyZstd (List.replicate 32 0) 17
        (List.replicate 12 3) [7]).length →
      (pack toyAead toyZstd (List.replicate 32 0) 17
        (List.replicate 12 3) [7]).set i v ≠
        pack toyAead toyZstd (List.replicate 32 0) 17 (List.replicate 12 3) [7] →
      ∃ e, unpack toyAead toyZstd (List.replicate 32 0)
          ((pack toyAead toyZstd (List.replicate 32 0) 17
            (List.replicate 12 3) [7]).set i v) =
        Except.error e) :=
  ⟨⟨by decide, by decide, by decide, rfl⟩,
    C1_pack_unpack_roundtrip_tamper toyAead toyZstd (List.replicate 32 0)
      (List.replicate 12 3) [7] 17 (by decide) (by decide) (by decide) rfl
      (toy_sound (List.replicate 32 0))
      (fun iv2 c2 h12 h1 heq =>
        toy_tag_inj (List.replicate 32 0) iv2 c2 h12 h1 heq)⟩

end Pack

namespace Manifest

theorem select_block_eq_of_blocks (d1 d2 : Db) (h : d1.blocks = d2.blocks)
    (dg : List UInt8) : select_block d1 dg = select_block d2 dg := by
  unfold select_block
  rw [h]

theorem store_block_dedup_eq (hash : List UInt8 → List UInt8)
    (min_archive_len : Nat) (client : Client) (new_file_id offset : Int)
    (block : List UInt8) (st : UpdateState) (bid : Int)
    (hsel : select_block st.db (hash block) = some bid) :
    store_block hash min_archive_len client new_file_id offset block st =
      ({ st with db := insert_new_mapping st.db new_file_id offset bid }, []) := by
  unfold store_block
  simp only [hsel]

theorem store_block_dedup_fold (hash : List UInt8 → List UInt8)
    (min_archive_len : Nat) (client : Client) (new_file_id : Int)
    (items : List (Int × List UInt8)) (st : UpdateState)
    (h : ∀ it ∈ items, (select_block st.db (hash it.2)).isSome) :
    (items.foldl (fun s it =>
        (store_block hash min_archive_len client new_file_id it.1 it.2 s).1)
      st).db.blocks = st.db.blocks ∧
    (items.foldl (fun s it =>
        (store_block hash min_archive_len client new_file_id it.1 it.2 s).1)
      st).archive = st.archive := by
  induction items generalizing st with
  | nil => exact ⟨rfl, rfl⟩
  | cons it rest ih =>
    obtain ⟨bid, hbid⟩ :=
      Option.isSome_iff_exists.1 (h it (List.mem_cons_self it rest))
    simp only [List.foldl_cons]
    rw [store_block_dedup_eq hash min_archive_len client new_file_id it.1 it.2
      st bid hbid]
    have hblocks :
        ({ st with db := insert_new_mapping st.db new_file_id it.1 bid } :
          UpdateState).db.blocks = st.db.blocks := rfl
    have h2 : ∀ it2 ∈ rest,
        (select_block ({ st with
          db := insert_new_mapping st.db new_file_id it.1 bid } :
            UpdateState).db (hash it2.2)).isSome := by
      intro it2 hm
      rw [select_block_eq_of_blocks _ st.db hblocks]
      exact h it2 (List.mem_cons_of_mem it hm)
    obtain ⟨h3, h4⟩ := ih _ h2
    exact ⟨h3.trans hblocks, h4⟩

/-- C7: in `store_block`, if a blocks row with the computed digest of
the incoming block already exists, the only state change is one new
new_mappings row (new_file_id, offset, existing block id): the blocks,
archives, files and mappings tables, the new_files table and the
in-flight archive scratch file are unchanged, and nothing is uploaded;
consequently, storing a sequence of blocks all of whose digests already
exist creates no blocks rows and no archive bytes. -/
theorem C7_store_block_dedup (hash : List UInt8 → List UInt8)
    (min_archive_len : Nat) (client : Client) (new_file_id offset : Int)
    (block : List UInt8) (st : UpdateState) (bid : Int)
    (hsel : select_block st.db (hash block) = some bid) :
    store_block hash min_archive_len client new_file_id offset block st =
      ({ st with db := { st.db with new_mappings := st.db.new_mappings ++
          [{ new_file_id := new_file_id, offset := offset, block_id := bid }] } },
        []) ∧
    ∀ items : List (Int × List UInt8),
      (∀ it ∈ items, (select_block st.db (hash it.2)).isSome) →
      (items.foldl (fun s it =>
          (store_block hash min_archive_len client new_file_id it.1 it.2 s).1)
        st).db.blocks = st.db.blocks ∧
      (items.foldl (fun s it =>
          (store_block hash min_archive_len client new_file_id it.1 it.2 s).1)
        st).archive = st.archive := by
  constructor
  · rw [store_block_dedup_eq hash min_archive_len client new_file_id offset
      block st bid hsel]
    rfl
  · intro items hitems
    exact store_block_dedup_fold hash min_archive_len client new_file_id items
      st hitems

/-- Witness for C7 at a concrete database (identity hash). -/
theorem C7_store_block_dedup_witness :
    select_block wDb (id ([9] : List UInt8)) = some 5 ∧
    (store_block id 50000000 wClient 7 0 [9]
        { db := wDb, archive := { id := 1, blocks := [] } } =
      ({ db := { wDb with new_mappings := wDb.new_mappings ++
            [{ new_file_id := 7, offset := 0, block_id := 5 }] },
          archive := { id := 1, blocks := [] } }, []) ∧
    ∀ items : List (Int × List UInt8),
      (∀ it ∈ items, (select_block wDb (id it.2)).isSome) →
      (items.foldl (fun s it => (store_block id 50000000 wClient 7 it.1 it.2 s).1)
        { db := wDb, archive := { id := 1, blocks := [] } }).db.blocks =
        wDb.blocks ∧
      (items.foldl (fun s it => (store_block id 50000000 wClient 7 it.1 it.2 s).1)
        { db := wDb, archive := { id := 1, blocks := [] } }).archive =
        { id := 1, blocks := [] }) :=
  ⟨by decide,
    C7_store_block_dedup id 50000000 wClient 7 0 [9]
      { db := wDb, archive := { id := 1, blocks := [] } } 5 (by decide)⟩

theorem delete_unused_archives_blocks_mapped (db : Db) (keep : Bool) :
    ∀ b ∈ (delete_unused_archives db keep).1.blocks,
      ∃ m ∈ (delete_unused_archives db keep).1.mappings, m.block_id = b.id := by
  intro b hb
  have hb2 : b ∈ (delete_unused_blocks
      (if keep then db else delete_unvisited_files db)).blocks := hb
  unfold delete_unused_blocks at hb2
  simp only [List.mem_filter] at hb2
  obtain ⟨-, hcond⟩ := hb2
  obtain ⟨m, hm, hmb⟩ := List.any_eq_true.1 hcond
  exact ⟨m, hm, eq_of_beq hmb⟩

theorem delete_unused_archives_archives_blocked (db : Db) (keep : Bool) :
    ∀ a ∈ (delete_unused_archives db keep).1.archives,
      ∃ b ∈ (delete_unused_archives db keep).1.blocks, b.archive_id = a.id := by
  intro a ha
  have ha2 : a ∈ ((delete_unused_blocks
      (if keep then db else delete_unvisited_files db)).archives.filter
        (fun a => (delete_unused_blocks
          (if keep then db else delete_unvisited_files db)).blocks.any
            (fun b => b.archive_id == a.id))) := ha
  simp only [List.mem_filter] at ha2
  obtain ⟨-, hcond⟩ := ha2
  obtain ⟨b, hb, hba⟩ := List.any_eq_true.1 hcond
  exact ⟨b, hb, eq_of_beq hba⟩

theorem upload_patchset_frame (client : Client) (db : Db) (p : List UInt8) :
    (upload_patchset client db p).1.blocks = db.blocks ∧
    (upload_patchset client db p).1.archives = db.archives ∧
    (upload_patchset client db p).1.mappings = db.mappings :=
  ⟨rfl, rfl, rfl⟩

theorem update_stage1_inv (keep : Bool) (client : Client) (interrupted : Bool)
    (producer : UpdateState → Except String (UpdateState × List String))
    (db0 : Db) (s1 : Stage1)
    (h : update_stage1 keep client interrupted producer db0 = .ok s1) :
    ∃ X : Db, s1.db = (delete_unused_archives X (interrupted || keep)).1 ∧
      s1.unused = (delete_unused_archives X (interrupted || keep)).2 := by
  unfold update_stage1 at h
  cases hp : producer { db := (insert_archive (delete_visited_files db0)).1, archive := { id := (insert_archive (delete_visited_files db0)).2, blocks := [] } } with
  | error e => simp only [hp] at h; cases h
  | ok prodRes =>
    simp only [hp, Except.ok.injEq] at h
    subst h
    exact ⟨_, rfl, rfl⟩

/-- C8: if the captured change-set of a backup/update session is empty,
the session prints "No changes recorded" and returns early: the
transaction is not committed (the returned state is the initial
database, all in-transaction mutations rolled back), no patchsets row
is created, no patchset blob is uploaded (the upload log is exactly the
producer's and the archive uploads from stage 1), and no remote
removals are performed. -/
theorem C8_empty_changeset_aborts (keep : Bool) (client : Client)
    (interrupted : Bool) (session_patchset : Db → Db → List UInt8)
    (producer : UpdateState → Except String (UpdateState × List String))
    (db0 : Db) (s1 : Stage1)
    (hstage : update_stage1 keep client interrupted producer db0 = .ok s1)
    (hempty : session_patchset db0 s1.db = []) :
    update keep client interrupted session_patchset producer db0 =
      .ok { db := db0, uploads := s1.uploads, removed := [],
            committed := false } := by
  unfold update
  rw [hstage]
  simp only [hempty, List.isEmpty_nil, if_true]

/-- C5: after every committed backup/update session — the session
garbage-collects before committing: it deletes unmapped blocks and
block-less archives, remembering the deleted archives' blob ids — every
row of the blocks table is referenced by at least one mappings row,
every row of the archives table is referenced by at least one blocks
row, and the remote removals performed after commit are exactly the
remembered blob ids of the deleted archives. -/
theorem C5_commit_gc_invariants (keep : Bool) (client : Client)
    (interrupted : Bool) (session_patchset : Db → Db → List UInt8)
    (producer : UpdateState → Except String (UpdateState × List String))
    (db0 : Db) (s1 : Stage1)
    (hstage : update_stage1 keep client interrupted producer db0 = .ok s1)
    (hne : session_patchset db0 s1.db ≠ []) :
    ∃ res, update keep client interrupted session_patchset producer db0 =
        .ok res ∧
      res.committed = true ∧
      (∀ b ∈ res.db.blocks, ∃ m ∈ res.db.mappings, m.block_id = b.id) ∧
      (∀ a ∈ res.db.archives, ∃ b ∈ res.db.blocks, b.archive_id = a.id) ∧
      res.removed = s1.unused.map (fun u =>
        ("archive_" ++ toString u.1, u.2.getD "")) := by
  obtain ⟨X, hdb, -⟩ := update_stage1_inv keep client interrupted producer
    db0 s1 hstage
  have hemp : (session_patchset db0 s1.db).isEmpty = false := by
    rw [List.isEmpty_eq_false]
    exact hne
  have hupd : update keep client interrupted session_patchset producer db0 =
      .ok { db := (upload_patchset client s1.db (session_patchset db0 s1.db)).1, uploads := s1.uploads ++ [(upload_patchset client s1.db (session_patchset db0 s1.db)).2], removed := s1.unused.map (fun u => ("archive_" ++ toString u.1, u.2.getD "")), committed := true } := by
    unfold update
    rw [hstage]
    simp only [hemp, Bool.false_eq_true, if_false]
  refine ⟨_, hupd, rfl, ?_, ?_, rfl⟩
  · intro b hb
    have hb2 : b ∈ s1.db.blocks := by
      rw [(upload_patchset_frame client s1.db
        (session_patchset db0 s1.db)).1] at hb
      exact hb
    rw [hdb] at hb2
    obtain ⟨m, hm, hmb⟩ :=
      delete_unused_archives_blocks_mapped X (interrupted || keep) b hb2
    refine ⟨m, ?_, hmb⟩
    rw [(upload_patchset_frame client s1.db
      (session_patchset db0 s1.db)).2.2, hdb]
    exact hm
  · intro a ha
    have ha2 : a ∈ s1.db.archives := by
      rw [(upload_patchset_frame client s1.db
        (session_patchset db0 s1.db)).2.1] at ha
      exact ha
    rw [hdb] at ha2
    obtain ⟨b, hb, hba⟩ :=
      delete_unused_archives_archives_blocked X (interrupted || keep) a ha2
    refine ⟨b, ?_, hba⟩
    rw [(upload_patchset_frame client s1.db
      (session_patchset db0 s1.db)).1, hdb]
    exact hb

theorem C8_empty_changeset_aborts_witness :
    update true wClient false (fun _ _ => []) (fun st => .ok (st, [])) wDb =
      .ok { db := wDb, uploads := wStage1.uploads, removed := [], committed := false } :=
  C8_empty_changeset_aborts true wClient false (fun _ _ => [])
    (fun st => .ok (st, [])) wDb wStage1 rfl rfl

theorem C5_commit_gc_invariants_witness :
    ∃ res, update true wClient false (fun _ _ => [1])
        (fun st => .ok (st, [])) wDb = .ok res ∧
      res.committed = true ∧
      (∀ b ∈ res.db.blocks, ∃ m ∈ res.db.mappings, m.block_id = b.id) ∧
      (∀ a ∈ res.db.archives, ∃ b ∈ res.db.blocks, b.archive_id = a.id) ∧
      res.removed = wStage1.unused.map (fun u =>
        ("archive_" ++ toString u.1, u.2.getD "")) :=
  C5_commit_gc_invariants true wClient false (fun _ _ => [1])
    (fun st => .ok (st, [])) wDb wStage1 rfl (by decide)

theorem select_small_mem (db : Db) (m : Int) (r : PatchsetRow)
    (hr : r ∈ db.patchsets) :
    (r.id, r.b2_file_id) ∈ select_small_patchsets db m ↔
      ∃ s, patchsetTailLen db r.id = some s ∧ s < m := by
  unfold select_small_patchsets
  rw [List.mem_map]
  constructor
  · rintro ⟨r2, hr2, heq⟩
    rw [List.mem_filter] at hr2
    have h1 : r2.id = r.id := congrArg Prod.fst heq
    have hcond := hr2.2
    rw [h1] at hcond
    cases hm : patchsetTailLen db r.id with
    | none => rw [hm] at hcond; cases hcond
    | some sv =>
      rw [hm] at hcond
      exact ⟨sv, rfl, of_decide_eq_true hcond⟩
  · rintro ⟨sv, hs, hlt⟩
    refine ⟨r, ?_, rfl⟩
    rw [List.mem_filter]
    refine ⟨(List.perm_insertionSort _ db.patchsets).mem_iff.mpr hr, ?_⟩
    rw [hs]
    exact decide_eq_true hlt

theorem select_small_ids (db : Db) (m : Int) :
    ∀ pr ∈ select_small_patchsets db m, ∃ r ∈ db.patchsets,
      pr.1 = r.id ∧ pr.2 = r.b2_file_id := by
  intro pr hpr
  unfold select_small_patchsets at hpr
  rw [List.mem_map] at hpr
  obtain ⟨r2, hr2, heq⟩ := hpr
  rw [List.mem_filter] at hr2
  exact ⟨r2, (List.perm_insertionSort _ db.patchsets).mem_iff.mp hr2.1,
    (congrArg Prod.fst heq).symm, (congrArg Prod.snd heq).symm⟩

theorem tail_vals_le (l : List PatchsetRow) (i j : Int) (hij : i ≤ j)
    (hlen : ∀ r ∈ l, r.b2_length = some (r.b2_length.getD 0) ∧
      0 ≤ r.b2_length.getD 0) :
    ((l.filter (fun r => j ≤ r.id)).filterMap (fun r => r.b2_length)).sum ≤
      ((l.filter (fun r => i ≤ r.id)).filterMap (fun r => r.b2_length)).sum := by
  induction l with
  | nil => simp
  | cons a t ih =>
    have ha := hlen a (List.mem_cons_self a t)
    have iht := ih (fun r hr => hlen r (List.mem_cons_of_mem a hr))
    obtain ⟨v, hv⟩ : ∃ v, a.b2_length = some v := ⟨_, ha.1⟩
    have hv0 : 0 ≤ v := by
      have h2 := ha.2
      rw [hv] at h2
      simpa using h2
    simp only [List.filter_cons]
    by_cases hj : j ≤ a.id
    · have hi : i ≤ a.id := le_trans hij hj
      rw [if_pos (decide_eq_true hj), if_pos (decide_eq_true hi)]
      simp only [List.filterMap_cons, hv, List.sum_cons]
      omega
    · rw [if_neg (by simp only [decide_eq_true_eq]; exact hj)]
      by_cases hi : i ≤ a.id
      · rw [if_pos (decide_eq_true hi)]
        simp only [List.filterMap_cons, hv, List.sum_cons]
        omega
      · rw [if_neg (by simp only [decide_eq_true_eq]; exact hi)]
        exact iht

theorem patchsetTailLen_mono (db : Db)
    (hlen : ∀ r ∈ db.patchsets, r.b2_length = some (r.b2_length.getD 0) ∧
      0 ≤ r.b2_length.getD 0)
    (i s : Int) (hs : patchsetTailLen db i = some s)
    (r2 : PatchsetRow) (hr2 : r2 ∈ db.patchsets) (hle : i ≤ r2.id) :
    ∃ t, patchsetTailLen db r2.id = some t ∧ t ≤ s := by
  simp only [patchsetTailLen] at hs ⊢
  have hne : ((db.patchsets.filter (fun r => r2.id ≤ r.id)).filterMap
      (fun r => r.b2_length)) ≠ [] := by
    have hmem : r2.b2_length.getD 0 ∈
        ((db.patchsets.filter (fun r => r2.id ≤ r.id)).filterMap
          (fun r => r.b2_length)) := by
      rw [List.mem_filterMap]
      refine ⟨r2, ?_, (hlen r2 hr2).1⟩
      rw [List.mem_filter]
      exact ⟨hr2, decide_eq_true (le_refl r2.id)⟩
    exact List.ne_nil_of_mem hmem
  cases hemp : ((db.patchsets.filter (fun r => i ≤ r.id)).filterMap
      (fun r => r.b2_length)).isEmpty with
  | true => rw [hemp] at hs; simp at hs
  | false =>
    rw [hemp] at hs
    simp only [Bool.false_eq_true, if_false, Option.some.injEq] at hs
    rw [if_neg (by simpa [List.isEmpty_iff] using hne)]
    refine ⟨_, rfl, ?_⟩
    rw [← hs]
    exact tail_vals_le db.patchsets i r2.id hle hlen

theorem foldl_delete_patchset (l : List (Int × Option String)) (d : Db) :
    (l.foldl (fun d pr => delete_patchset d pr.1) d).patchsets =
      d.patchsets.filter (fun r => l.all (fun pr => r.id != pr.1)) := by
  induction l generalizing d with
  | nil => simp
  | cons pr t ih =>
    rw [List.foldl_cons, ih]
    unfold delete_patchset
    simp only [List.filter_filter]
    apply List.filter_congr
    intro r hr
    simp [List.all_cons, Bool.and_comm]

theorem upload_patchset_patchsets (client : Client) (db : Db) (p : List UInt8)
    (hid : ∀ r ∈ db.patchsets, r.id ≠ db.next_patchset_id) :
    (upload_patchset client db p).1.patchsets =
      db.patchsets ++
        [{ id := db.next_patchset_id,
           b2_file_id := some (client.upload
             ("manifest_" ++ toString db.next_patchset_id) p).1,
           b2_length := some (client.upload
             ("manifest_" ++ toString db.next_patchset_id) p).2 }] := by
  simp only [upload_patchset, insert_patchset, update_patchset,
    List.map_append, List.map_cons, List.map_nil, beq_self_eq_true, if_true]
  congr 1
  conv_rhs => rw [← List.map_id db.patchsets]
  apply List.map_congr_left
  intro r hr
  rw [if_neg]
  · rfl
  · simp only [beq_iff_eq]
    exact hid r hr

/-- C6: `collect_small_patchsets` selects exactly the patchsets whose
tail sum of blob lengths (from their id upward) is below
`max_manifest_len`; under well-formedness of the table (every row has a
recorded non-negative blob length and an id below the id counter) the
selection is closed upward in id, i.e. it is the maximal tail from the
highest id downward.  With fewer than two candidates it fails with
"Not enough small patchsets" and produces no new state; with at least
two it downloads the selected patchsets oldest-first, merges the
streams into one new patchset row, deletes exactly the selected rows in
the same transaction, and removes the old blobs remotely. -/
theorem C6_collect_small_patchsets (m : Int) (client : Client)
    (download : String → List UInt8) (db : Db)
    (hlen : ∀ r ∈ db.patchsets, r.b2_length = some (r.b2_length.getD 0) ∧
      0 ≤ r.b2_length.getD 0)
    (hid : ∀ r ∈ db.patchsets, r.id < db.next_patchset_id) :
    (∀ r ∈ db.patchsets, ((r.id, r.b2_file_id) ∈ select_small_patchsets db m ↔
        ∃ s, patchsetTailLen db r.id = some s ∧ s < m)) ∧
    (∀ r ∈ db.patchsets, ∀ r2 ∈ db.patchsets,
        (r.id, r.b2_file_id) ∈ select_small_patchsets db m → r.id ≤ r2.id →
        (r2.id, r2.b2_file_id) ∈ select_small_patchsets db m) ∧
    ((select_small_patchsets db m).length ≤ 1 →
        collect_small_patchsets m client download db =
          .error "Not enough small patchsets") ∧
    (2 ≤ (select_small_patchsets db m).length →
        ∃ res, collect_small_patchsets m client download db = .ok res ∧
          res.downloaded = (select_small_patchsets db m).reverse.map
            (fun pr => "manifest_" ++ toString pr.1) ∧
          res.uploaded = ["manifest_" ++ toString db.next_patchset_id] ∧
          res.removed = (select_small_patchsets db m).map
            (fun pr => ("manifest_" ++ toString pr.1, pr.2.getD "")) ∧
          res.db.patchsets =
            db.patchsets.filter (fun r =>
              (select_small_patchsets db m).all (fun pr => r.id != pr.1)) ++
              [{ id := db.next_patchset_id,
                 b2_file_id := some (client.upload
                   ("manifest_" ++ toString db.next_patchset_id)
                   (((select_small_patchsets db m).reverse.map
                     (fun pr => "manifest_" ++ toString pr.1)).map
                       download).flatten).1,
                 b2_length := some (client.upload
                   ("manifest_" ++ toString db.next_patchset_id)
                   (((select_small_patchsets db m).reverse.map
                     (fun pr => "manifest_" ++ toString pr.1)).map
                       download).flatten).2 }]) := by
  refine ⟨fun r hr => select_small_mem db m r hr, ?_, ?_, ?_⟩
  · intro r hr r2 hr2 hmem hle
    obtain ⟨s, hs, hlt⟩ := (select_small_mem db m r hr).mp hmem
    obtain ⟨t, ht, hts⟩ := patchsetTailLen_mono db hlen r.id s hs r2 hr2 hle
    exact (select_small_mem db m r2 hr2).mpr ⟨t, ht, lt_of_le_of_lt hts hlt⟩
  · intro h1
    simp only [collect_small_patchsets]
    rw [if_pos h1]
  · intro h2
    have hn2 : ¬ ((select_small_patchsets db m).length ≤ 1) := by omega
    have hcoll : collect_small_patchsets m client download db = .ok
        { db := (select_small_patchsets db m).foldl
            (fun d pr => delete_patchset d pr.1)
            (upload_patchset client db
              (((select_small_patchsets db m).reverse.map
                (fun pr => "manifest_" ++ toString pr.1)).map
                  download).flatten).1,
          downloaded := (select_small_patchsets db m).reverse.map
            (fun pr => "manifest_" ++ toString pr.1),
          uploaded := [(upload_patchset client db
            (((select_small_patchsets db m).reverse.map
              (fun pr => "manifest_" ++ toString pr.1)).map
                download).flatten).2],
          removed := (select_small_patchsets db m).map
            (fun pr => ("manifest_" ++ toString pr.1, pr.2.getD "")) } := by
      simp only [collect_small_patchsets]
      rw [if_neg hn2]
    refine ⟨_, hcoll, rfl, rfl, rfl, ?_⟩
    rw [foldl_delete_patchset]
    rw [upload_patchset_patchsets client db _ (fun r hr => ne_of_lt (hid r hr))]
    rw [List.filter_append]
    have hall : ((select_small_patchsets db m).all
        (fun pr => db.next_patchset_id != pr.1)) = true := by
      rw [List.all_eq_true]
      intro pr hpr
      obtain ⟨r, hr, hpr1, -⟩ := select_small_ids db m pr hpr
      rw [bne_iff_ne, hpr1]
      exact (ne_of_lt (hid r hr)).symm
    congr 1
    simp [hall]

theorem C6_collect_small_patchsets_witness :
    (∀ r ∈ wDb.patchsets, r.b2_length = some (r.b2_length.getD 0) ∧
      0 ≤ r.b2_length.getD 0) ∧
    (∀ r ∈ wDb.patchsets, r.id < wDb.next_patchset_id) ∧
    (2 ≤ (select_small_patchsets wDb 100).length →
      ∃ res, collect_small_patchsets 100 wClient (fun _ => [1]) wDb =
          .ok res ∧
        res.downloaded = (select_small_patchsets wDb 100).reverse.map
          (fun pr => "manifest_" ++ toString pr.1) ∧
        res.uploaded = ["manifest_" ++ toString wDb.next_patchset_id] ∧
        res.removed = (select_small_patchsets wDb 100).map
          (fun pr => ("manifest_" ++ toString pr.1, pr.2.getD "")) ∧
        res.db.patchsets =
          wDb.patchsets.filter (fun r =>
            (select_small_patchsets wDb 100).all (fun pr => r.id != pr.1)) ++
            [{ id := wDb.next_patchset_id,
               b2_file_id := some (wClient.upload
                 ("manifest_" ++ toString wDb.next_patchset_id)
                 (((select_small_patchsets wDb 100).reverse.map
                   (fun pr => "manifest_" ++ toString pr.1)).map
                     (fun _ => [1])).flatten).1,
               b2_length := some (wClient.upload
                 ("manifest_" ++ toString wDb.next_patchset_id)
                 (((select_small_patchsets wDb 100).reverse.map
                   (fun pr => "manifest_" ++ toString pr.1)).map
                     (fun _ => [1])).flatten).2 }]) :=
  ⟨by decide, by decide,
    (C6_collect_small_patchsets 100 wClient (fun _ => [1]) wDb
      (by decide) (by decide)).2.2.2⟩

theorem restore_file_aux (K : Finset Int) (ids : List Int) (c : LruCache)
    (hcap : K.card ≤ c.cap) (hids : ∀ k ∈ ids, k ∈ K)
    (hnd : c.entries.Nodup) (hsub : ∀ k ∈ c.entries, k ∈ K) :
    (restore_file_downloads c ids).1.cap = c.cap ∧
    (restore_file_downloads c ids).1.entries.Nodup ∧
    (∀ k ∈ (restore_file_downloads c ids).1.entries, k ∈ K) ∧
    (∀ k ∈ c.entries, k ∈ (restore_file_downloads c ids).1.entries) ∧
    (∀ k ∈ (restore_file_downloads c ids).2,
      k ∉ c.entries ∧ k ∈ (restore_file_downloads c ids).1.entries) ∧
    (restore_file_downloads c ids).2.Nodup := by
  induction ids generalizing c with
  | nil =>
    refine ⟨rfl, hnd, hsub, fun k hk => hk, ?_, List.nodup_nil⟩
    intro k hk
    cases hk
  | cons k ks ih =>
    by_cases hk : k ∈ c.entries
    · have hg : c.get_mut k =
          ({ c with entries := k :: c.entries.erase k }, true) := by
        unfold LruCache.get_mut
        rw [if_pos hk]
      have hstep : restore_file_downloads c (k :: ks) =
          restore_file_downloads { c with entries := k :: c.entries.erase k }
            ks := by
        simp only [restore_file_downloads, hg, if_true]
      have hkerase : k ∉ c.entries.erase k := by
        intro hmem
        exact ((hnd.mem_erase_iff).mp hmem).1 rfl
      have hnd2 : (k :: c.entries.erase k).Nodup :=
        List.nodup_cons.mpr ⟨hkerase, hnd.erase k⟩
      have hsub2 : ∀ j ∈ (k :: c.entries.erase k), j ∈ K := by
        intro j hj
        rcases List.mem_cons.mp hj with h | h
        · rw [h]; exact hsub k hk
        · exact hsub j (List.mem_of_mem_erase h)
      have hmono0 : ∀ j ∈ c.entries, j ∈ (k :: c.entries.erase k) := by
        intro j hj
        by_cases hjk : j = k
        · rw [hjk]; exact List.mem_cons_self _ _
        · exact List.mem_cons_of_mem _ ((List.mem_erase_of_ne hjk).mpr hj)
      obtain ⟨ih1, ih2, ih3, ih4, ih5, ih6⟩ :=
        ih { c with entries := k :: c.entries.erase k } hcap
          (fun j hj => hids j (List.mem_cons_of_mem k hj)) hnd2 hsub2
      rw [hstep]
      refine ⟨ih1, ih2, ih3, ?_, ?_, ih6⟩
      · intro j hj
        exact ih4 j (hmono0 j hj)
      · intro j hj
        refine ⟨?_, (ih5 j hj).2⟩
        intro hjc
        exact (ih5 j hj).1 (hmono0 j hjc)
    · have hg : c.get_mut k = (c, false) := by
        unfold LruCache.get_mut
        rw [if_neg hk]
      have hcard : c.entries.length + 1 ≤ c.cap := by
        have h1 : c.entries.toFinset.card = c.entries.length :=
          List.toFinset_card_of_nodup hnd
        have h2 : insert k c.entries.toFinset ⊆ K := by
          refine Finset.insert_subset (hids k (List.mem_cons_self k ks)) ?_
          intro j hj
          exact hsub j (List.mem_toFinset.mp hj)
        have h3 : (insert k c.entries.toFinset).card =
            c.entries.toFinset.card + 1 :=
          Finset.card_insert_of_not_mem (fun hmem =>
            hk (List.mem_toFinset.mp hmem))
        have h4 := Finset.card_le_card h2
        omega
      have hins : c.insert k = { c with entries := k :: c.entries } := by
        unfold LruCache.insert
        rw [List.erase_of_not_mem hk]
        rw [List.take_of_length_le (by simpa using hcard)]
      have hstep : restore_file_downloads c (k :: ks) =
          ((restore_file_downloads { c with entries := k :: c.entries } ks).1,
            k :: (restore_file_downloads { c with entries := k :: c.entries }
              ks).2) := by
        simp only [restore_file_downloads, hg, hins, Bool.false_eq_true,
          if_false]
      have hnd2 : (k :: c.entries).Nodup := List.nodup_cons.mpr ⟨hk, hnd⟩
      have hsub2 : ∀ j ∈ (k :: c.entries), j ∈ K := by
        intro j hj
        rcases List.mem_cons.mp hj with h | h
        · rw [h]; exact hids k (List.mem_cons_self k ks)
        · exact hsub j h
      obtain ⟨ih1, ih2, ih3, ih4, ih5, ih6⟩ :=
        ih { c with entries := k :: c.entries } hcap
          (fun j hj => hids j (List.mem_cons_of_mem k hj)) hnd2 hsub2
      rw [hstep]
      refine ⟨ih1, ih2, ih3, ?_, ?_, ?_⟩
      · intro j hj
        exact ih4 j (List.mem_cons_of_mem k hj)
      · intro j hj
        rcases List.mem_cons.mp hj with h | h
        · rw [h]
          exact ⟨hk, ih4 k (List.mem_cons_self _ _)⟩
        · refine ⟨?_, (ih5 j h).2⟩
          intro hjc
          exact (ih5 j h).1 (List.mem_cons_of_mem k hjc)
      · refine List.nodup_cons.mpr ⟨?_, ih6⟩
        intro hmem
        exact (ih5 k hmem).1 (List.mem_cons_self _ _)

theorem restore_files_aux (K : Finset Int) (files : List (List Int))
    (c : LruCache) (hcap : K.card ≤ c.cap)
    (hids : ∀ f ∈ files, ∀ k ∈ f, k ∈ K)
    (hnd : c.entries.Nodup) (hsub : ∀ k ∈ c.entries, k ∈ K) :
    (restore_files_downloads c files).1.cap = c.cap ∧
    (restore_files_downloads c files).1.entries.Nodup ∧
    (∀ k ∈ (restore_files_downloads c files).1.entries, k ∈ K) ∧
    (∀ k ∈ c.entries, k ∈ (restore_files_downloads c files).1.entries) ∧
    (∀ k ∈ (restore_files_downloads c files).2,
      k ∉ c.entries ∧ k ∈ (restore_files_downloads c files).1.entries) ∧
    (restore_files_downloads c files).2.Nodup := by
  induction files generalizing c with
  | nil =>
    refine ⟨rfl, hnd, hsub, fun k hk => hk, ?_, List.nodup_nil⟩
    intro k hk
    cases hk
  | cons f fs ih =>
    obtain ⟨rf1, rf2, rf3, rf4, rf5, rf6⟩ :=
      restore_file_aux K f c hcap (hids f (List.mem_cons_self f fs)) hnd hsub
    obtain ⟨ih1, ih2, ih3, ih4, ih5, ih6⟩ :=
      ih (restore_file_downloads c f).1 (by rw [rf1]; exact hcap)
        (fun g hg => hids g (List.mem_cons_of_mem f hg)) rf2 rf3
    have hstep : restore_files_downloads c (f :: fs) =
        ((restore_files_downloads (restore_file_downloads c f).1 fs).1,
          (restore_file_downloads c f).2 ++
            (restore_files_downloads (restore_file_downloads c f).1 fs).2) :=
      rfl
    rw [hstep]
    refine ⟨by rw [ih1, rf1], ih2, ih3, ?_, ?_, ?_⟩
    · intro j hj
      exact ih4 j (rf4 j hj)
    · intro j hj
      rcases List.mem_append.mp hj with h | h
      · exact ⟨(rf5 j h).1, ih4 j ((rf5 j h).2)⟩
      · refine ⟨?_, (ih5 j h).2⟩
        intro hjc
        exact (ih5 j h).1 (rf4 j hjc)
    · rw [List.nodup_append]
      refine ⟨rf6, ih6, ?_⟩
      intro j hj hj2
      exact (ih5 j hj2).1 ((rf5 j hj).2)

/-- C3 counterexample: with an archive cache of capacity 1 (a legal
`archive_cache_cap`), two restored files that both reference archives 1
and 2 make `restore_files` download archive 1 twice in a single
invocation — the outer loop is over files, not archives, and the LRU
cache evicts archive 1 while archive 2 is fetched. -/
theorem C3_counterexample :
    ¬ ((restore_files_downloads { cap := 1, entries := [] }
      [[1, 2], [1, 2]]).2.count 1 ≤ 1) := by decide

/-- C3 (amended): during a single `restore_files` invocation each
referenced archive blob is downloaded at most once provided the archive
cache capacity is at least the number of distinct archives referenced
by the selected files; in general the bound is per cache lifetime, not
per invocation, because the LRU cache can evict and re-download. -/
theorem C3_restore_downloads (cap : Nat) (files : List (List Int))
    (hcap : files.flatten.toFinset.card ≤ cap) :
    ∀ k, ((restore_files_downloads { cap := cap, entries := [] }
      files).2.count k ≤ 1) := by
  have h := restore_files_aux files.flatten.toFinset files
    { cap := cap, entries := [] } hcap
    (fun f hf k hk => List.mem_toFinset.mpr (List.mem_flatten.mpr ⟨f, hf, hk⟩))
    List.nodup_nil (fun k hk => absurd hk (List.not_mem_nil k))
  exact fun k => List.nodup_iff_count_le_one.mp h.2.2.2.2.2 k

theorem C3_restore_downloads_witness :
    ((restore_files_downloads { cap := 2, entries := [] }
      [[1, 2], [1, 2]]).2.count 1 ≤ 1) :=
  C3_restore_downloads 2 [[1, 2], [1, 2]] (by decide) 1

end Manifest

end B2Backup
